import Mathlib

/-!
Shallow embedding of the `statute-graph` repository core:
`src/statute_graph/graph.py` (class `StatuteGraph`) and the
forward-reference comparator of `src/statute_graph/cli.py`.

Conventions of the embedding:
* Python dicts that keep insertion order (the `networkx.DiGraph` node and
  adjacency dictionaries) are modelled as lists kept in insertion order.
* Python sets (`self._encoded`, `set(...)`) are modelled as duplicate-free
  lists; set insertion appends when the element is new.
* The `networkx` library calls (`topological_sort`,
  `strongly_connected_components`, `condensation`, `simple_cycles`) are
  modelled by executable definitions below that satisfy the documented
  contracts of those functions; reachability is computed by a bounded
  saturation loop, and the topological order of the (acyclic) condensation
  is realised by sorting components by ascending size of their reachable
  set, which orders every component after all components it can reach.
* Python strings are compared and taken apart through `String.data`
  (their character lists) so that every definition evaluates by `decide`.
-/

/-! ### Definitions -/

/-- Attribute dictionaries (`**attrs` keyword arguments) as association
lists from attribute name to value. -/
abbrev Attrs := List (String × String)

/-- Directed graph of statutory cross-references (`class StatuteGraph`).
`nodes` and `edges` model the `networkx.DiGraph` store in insertion order;
`encoded` models the mutable `self._encoded` set of citation paths. -/
structure StatuteGraph where
  nodes : List (String × Attrs)
  edges : List ((String × String) × Attrs)
  encoded : List String
deriving Repr, DecidableEq

namespace StatuteGraph

/-- `StatuteGraph.__init__`: the empty graph. -/
def empty : StatuteGraph := ⟨[], [], []⟩

/-- The node identifiers, in insertion order (`self._graph.nodes()`). -/
def nodeIds (g : StatuteGraph) : List String := g.nodes.map Prod.fst

/-- The edge endpoint pairs, in insertion order (`self._graph.edges()`). -/
def edgeIds (g : StatuteGraph) : List (String × String) := g.edges.map Prod.fst

/-- `num_nodes` property. -/
def num_nodes (g : StatuteGraph) : Nat := g.nodes.length

/-- `num_edges` property. -/
def num_edges (g : StatuteGraph) : Nat := g.edges.length

/-- `dict.update` on an attribute dictionary: keys of `new` override the
old binding, other old bindings are kept. -/
def updateAttrs (old new : Attrs) : Attrs :=
  old.filter (fun kv => new.all (fun kv2 => kv2.1 != kv.1)) ++ new

/-- `add_node(citation_path, **attrs)`: idempotent upsert; an existing
node keeps its position and merges the attributes (`networkx` semantics),
a new node is appended. -/
def add_node (g : StatuteGraph) (citation_path : String) (attrs : Attrs) :
    StatuteGraph :=
  if citation_path ∈ nodeIds g then
    { g with nodes := g.nodes.map (fun p =>
        if p.1 = citation_path then (p.1, updateAttrs p.2 attrs) else p) }
  else
    { g with nodes := g.nodes ++ [(citation_path, attrs)] }

/-- The node auto-creation inside `networkx.DiGraph.add_edge`: a missing
endpoint is appended as a node with an empty attribute dictionary. -/
def ensureNode (g : StatuteGraph) (id : String) : StatuteGraph :=
  if id ∈ nodeIds g then g else { g with nodes := g.nodes ++ [(id, [])] }

/-- `networkx.DiGraph.add_edge(u, v, **data)`: silently creates missing
endpoint nodes with an empty attribute dictionary, then upserts the single
directed edge `(u, v)`, merging attributes on re-addition. -/
def addEdgeRaw (g : StatuteGraph) (u v : String) (data : Attrs) :
    StatuteGraph :=
  let g2 := ensureNode (ensureNode g u) v
  if (u, v) ∈ edgeIds g2 then
    { g2 with edges := g2.edges.map (fun e =>
        if e.1 = (u, v) then (e.1, updateAttrs e.2 data) else e) }
  else
    { g2 with edges := g2.edges ++ [((u, v), data)] }

/-- `add_edge(from_node, to_node, ref_type="unknown", **attrs)`: the
stored edge data is the dictionary `{ref_type: ref_type, **attrs}`. -/
def add_edge (g : StatuteGraph) (from_node to_node ref_type : String)
    (attrs : Attrs) : StatuteGraph :=
  addEdgeRaw g from_node to_node (("ref_type", ref_type) :: attrs)

/-- `get_dependencies(node)`: the successors of `node`, i.e. the targets
of the edges leaving `node`, in insertion order. -/
def get_dependencies (g : StatuteGraph) (node : String) : List String :=
  ((edgeIds g).filter (fun e => e.1 == node)).map Prod.snd

/-- `get_dependents(node)`: the predecessors of `node`, i.e. the sources
of the edges entering `node`, in insertion order. -/
def get_dependents (g : StatuteGraph) (node : String) : List String :=
  ((edgeIds g).filter (fun e => e.2 == node)).map Prod.fst

/-- `in_degree(node)`: in this repository's inverted naming, the number of
dependencies, i.e. `networkx` out-degree. -/
def in_degree (g : StatuteGraph) (node : String) : Nat :=
  (get_dependencies g node).length

/-- `out_degree(node)`: the number of dependents, i.e. `networkx`
in-degree. -/
def out_degree (g : StatuteGraph) (node : String) : Nat :=
  (get_dependents g node).length

/-- `mark_encoded(node)`: set insertion into `self._encoded`. -/
def mark_encoded (g : StatuteGraph) (node : String) : StatuteGraph :=
  if node ∈ g.encoded then g else { g with encoded := g.encoded ++ [node] }

/-- Well-formedness of the store as `networkx` maintains it: node ids are
unique, there is at most one edge per ordered pair, and every edge
endpoint is a node of the graph. Every graph built through the `add_node`
and `add_edge` API from `empty` satisfies this (see the C10 theorems). -/
def WF (g : StatuteGraph) : Prop :=
  (nodeIds g).Nodup ∧ (edgeIds g).Nodup ∧
    ∀ e ∈ edgeIds g, e.1 ∈ nodeIds g ∧ e.2 ∈ nodeIds g

instance (g : StatuteGraph) : Decidable (WF g) := by
  unfold WF; infer_instance

/-- One saturation pass over the edge list: append the target of every
edge whose source is already collected and whose target is not. Together
with `stepSet`/`reachAux` this is the executable model of reachability on
which the `networkx` strongly-connected-component and condensation calls
of `graph.py` are interpreted. -/
def step1 (s : List String) (e : String × String) : List String :=
  if e.1 ∈ s ∧ e.2 ∉ s then s ++ [e.2] else s

/-- One pass of `step1` over the whole edge list. -/
def stepSet (E : List (String × String)) (s : List String) : List String :=
  E.foldl step1 s

/-- `n` saturation passes starting from the singleton `{v}`. -/
def reachAux (E : List (String × String)) (n : Nat) (v : String) :
    List String :=
  Nat.iterate (stepSet E) n [v]

/-- Nodes reachable from `v` along dependency edges; `(nodeIds g).length`
passes always reach the fixpoint (`reachSet_closed` below). -/
def reachSet (g : StatuteGraph) (v : String) : List String :=
  reachAux (edgeIds g) (nodeIds g).length v

/-- Abstract reachability along a list of directed edges. -/
inductive Reach (E : List (String × String)) : String → String → Prop
  | refl (v : String) : Reach E v v
  | tail {u v w : String} : Reach E u v → (v, w) ∈ E → Reach E u w

/-- Mutual reachability: `u` and `v` lie in the same strongly connected
component (models membership in one element of
`networkx.strongly_connected_components`). -/
def sameSCC (g : StatuteGraph) (u v : String) : Prop :=
  u ∈ reachSet g v ∧ v ∈ reachSet g u

instance (g : StatuteGraph) (u v : String) : Decidable (sameSCC g u v) := by
  unfold sameSCC; infer_instance

/-- The strongly connected component of `u`: the graph nodes mutually
reachable with `u`, in node insertion order. -/
def sccOf (g : StatuteGraph) (u : String) : List String :=
  (nodeIds g).filter (fun v => decide (sameSCC g u v))

/-- `u` is the canonical representative (first member in node order) of
its strongly connected component. -/
def isRep (g : StatuteGraph) (u : String) : Bool :=
  (sccOf g u).head? == some u

/-- One representative per strongly connected component, in node order:
the canonical enumeration of `networkx.strongly_connected_components`. -/
def sccReps (g : StatuteGraph) : List String :=
  (nodeIds g).filter (isRep g)

/-- The canonical representative of the component of `u`. -/
def repOf (g : StatuteGraph) (u : String) : String :=
  ((sccOf g u).head?).getD u

/-- `get_sccs()`: the strongly connected components. -/
def get_sccs (g : StatuteGraph) : List (List String) :=
  (sccReps g).map (sccOf g)

/-- Insertion into a list sorted by a boolean comparator (executable
model of the Python sorts used by `graph.py`). -/
def insertBy (le : String → String → Bool) (x : String) :
    List String → List String
  | [] => [x]
  | y :: ys => if le x y then x :: y :: ys else y :: insertBy le x ys

/-- Insertion sort by a boolean comparator. -/
def sortBy (le : String → String → Bool) : List String → List String
  | [] => []
  | x :: xs => insertBy le x (sortBy le xs)

/-- Sort key used to realise the topological order of the condensation:
the size of the reachable set. If component `C₁` depends on component
`C₂` (a condensation edge `C₁ → C₂`), every member of `C₂` has a strictly
smaller key than every member of `C₁`, so ascending key order is a valid
dependencies-first linearisation of the (always acyclic) condensation
DAG, as produced by `nx.condensation` plus reversed
`nx.topological_sort`. -/
def orderKey (g : StatuteGraph) (u : String) : Nat := (reachSet g u).length

def keyLe (g : StatuteGraph) (a b : String) : Bool :=
  decide (orderKey g a ≤ orderKey g b)

/-- `scc_nodes.sort(key=lambda n: self.out_degree(n), reverse=True)`:
descending out-degree comparator for the order inside one component. -/
def outDegGe (g : StatuteGraph) (a b : String) : Bool :=
  decide (out_degree g b ≤ out_degree g a)

/-- `_topological_sort_with_cycles`: the strongly connected components in
dependencies-first condensation order, each expanded into its members
sorted by descending out-degree. -/
def topoSortWithCycles (g : StatuteGraph) : List String :=
  (sortBy (keyLe g) (sccReps g)).flatMap
    (fun r => sortBy (outDegGe g) (sccOf g r))

/-- `list(reversed(list(nx.topological_sort(self._graph))))` on an
acyclic graph: a dependencies-first topological order, realised by
ascending `orderKey` (on an acyclic graph every edge strictly decreases
the key, so this is a valid reversed topological order). -/
def topoSortAcyclic (g : StatuteGraph) : List String :=
  sortBy (keyLe g) (nodeIds g)

/-- Does the graph contain a directed cycle (including self-loops)?
`nx.topological_sort` raises `NetworkXUnfeasible` exactly in this case:
some edge `u → w` has `u` reachable from `w`. -/
def hasCycle (g : StatuteGraph) : Bool :=
  (edgeIds g).any (fun e => decide (e.1 ∈ reachSet g e.2))

/-- Simple paths of exactly one more edge: extend each path (kept in
reversed order, head = latest node) by an edge leaving its head whose
target is not yet on the path. -/
def extendPath (E : List (String × String)) (p : List String) :
    List (List String) :=
  match p with
  | [] => []
  | v :: _ => (E.filter (fun e => e.1 == v)).filterMap
      (fun e => if e.2 ∈ p then none else some (e.2 :: p))

/-- Simple paths of exactly `k` edges starting at `v` (reversed lists). -/
def pathsFrom (E : List (String × String)) (v : String) :
    Nat → List (List String)
  | 0 => [[v]]
  | k + 1 => (pathsFrom E v k).flatMap (extendPath E)

/-- Model of `nx.simple_cycles`: every simple cycle, enumerated once,
rooted at its member that is first in node insertion order; a cycle is a
simple path from `v` closed by an edge back to `v`. -/
def simpleCycles (g : StatuteGraph) : List (List String) :=
  (nodeIds g).flatMap (fun v =>
    (List.range (nodeIds g).length).flatMap (fun k =>
      (pathsFrom (edgeIds g) v k).filterMap (fun p =>
        match p with
        | [] => none
        | w :: _ =>
            if (w, v) ∈ edgeIds g ∧ ∀ x ∈ p, x ∈ nodeIds g →
                (nodeIds g).indexOf v ≤ (nodeIds g).indexOf x
            then some p.reverse else none)))

/-- The `ValueError` raised by strict `topological_sort` carries
`cycles[:3]`, up to three example cycles. -/
structure CycleDetected where
  cycles : List (List String)
deriving Repr, DecidableEq

/-- `topological_sort(allow_cycles)`: try the strict topological order
(`try`/`except nx.NetworkXUnfeasible`); on a cyclic graph raise
`ValueError` with at most three example cycles when strict, and fall back
to `_topological_sort_with_cycles` when cycles are allowed. -/
def topological_sort (g : StatuteGraph) (allow_cycles : Bool) :
    Except CycleDetected (List String) :=
  if hasCycle g = false then .ok (topoSortAcyclic g)
  else if allow_cycles = false then .error ⟨(simpleCycles g).take 3⟩
  else .ok (topoSortWithCycles g)

/-- One record of `get_encoding_sequence()`. -/
structure SeqEntry where
  citation_path : String
  order : Nat
  scc_size : Nat
  dependencies : Nat
  dependents : Nat
deriving Repr, DecidableEq

/-- `get_encoding_sequence()`: the cycle-tolerant order with 1-indexed
positions and per-node metadata; `scc_lookup.get(node, 1)` equals the
size of the component containing `node`, i.e. `(sccOf g node).length`. -/
def get_encoding_sequence (g : StatuteGraph) : List SeqEntry :=
  match topological_sort g true with
  | .error _ => []
  | .ok order => order.enum.map (fun p =>
      ⟨p.2, p.1 + 1, (sccOf g p.2).length, in_degree g p.2,
        out_degree g p.2⟩)

/-- Example graph for the C1 witness: the two-node cycle `A ↔ B` plus
`C → A`, built through the public `add_node`/`add_edge` API. -/
def exC1 : StatuteGraph :=
  let g0 := add_node (add_node (add_node empty "A" []) "B" []) "C" []
  let g1 := add_edge g0 "A" "B" "internal_section" []
  let g2 := add_edge g1 "B" "A" "internal_section" []
  add_edge g2 "C" "A" "internal_section" []

/-- Example graph for the C2 witness: the cycle `A ↔ B` and `C → A`. -/
def exC2 : StatuteGraph :=
  let g0 := add_node (add_node (add_node empty "A" []) "B" []) "C" []
  let g1 := add_edge g0 "A" "B" "internal_section" []
  let g2 := add_edge g1 "B" "A" "internal_section" []
  add_edge g2 "C" "A" "internal_section" []

/-- Example graph for the C3 witness: the acyclic chain `A → B → C`. -/
def exC3 : StatuteGraph :=
  let g0 := add_node (add_node (add_node empty "A" []) "B" []) "C" []
  add_edge (add_edge g0 "A" "B" "internal_section" [])
    "B" "C" "internal_section" []

/-- Example graph for the C4 witness: the two-node cycle `A ↔ B`. -/
def exC4 : StatuteGraph :=
  let g0 := add_node (add_node empty "A" []) "B" []
  add_edge (add_edge g0 "A" "B" "internal_section" [])
    "B" "A" "internal_section" []

/-- Python `set.add`: append the element when it is new. -/
def insertSet (s : List String) (x : String) : List String :=
  if x ∈ s then s else s ++ [x]

/-- Python `set.update`: insert every element of `t`. -/
def unionSet (s t : List String) : List String := t.foldl insertSet s

/-- `depth(node)`: the source recursion
`1 + max(self.depth(dep) for dep in deps)` has no visited set, so the
embedding makes the Python call-stack depth explicit as fuel and returns
`none` when the fuel is exhausted. `depthFuel g n v = none` for *every*
`n` means the Python recursion never bottoms out at `v`. -/
def depthFuel (g : StatuteGraph) : Nat → String → Option Nat
  | 0, _ => none
  | n + 1, v =>
      let deps := get_dependencies g v
      if deps.isEmpty then some 0
      else
        match deps.foldlM (fun acc dep =>
            match depthFuel g n dep with
            | none => none
            | some d => some (Nat.max acc d)) 0 with
        | none => none
        | some m => some (1 + m)

/-- `get_ancestors(node, max_depth)` with the unbounded source recursion
made fuel-explicit (the recursion has no visited set; only `max_depth`
bounds it, and `max_depth=None` leaves it unbounded). -/
def get_ancestorsFuel (g : StatuteGraph) :
    Nat → Option Nat → String → Option (List String)
  | 0, _, _ => none
  | fuel + 1, maxDepth, node =>
      if maxDepth = some 0 then some []
      else
        (get_dependencies g node).foldlM (fun acc dep =>
          match maxDepth with
          | none =>
              match get_ancestorsFuel g fuel none dep with
              | none => none
              | some s => some (unionSet (insertSet acc dep) s)
          | some d =>
              if 1 < d then
                match get_ancestorsFuel g fuel (some (d - 1)) dep with
                | none => none
                | some s => some (unionSet (insertSet acc dep) s)
              else some (insertSet acc dep)) []

/-- `get_descendants(node, max_depth)`, dual to `get_ancestorsFuel` over
the dependents. -/
def get_descendantsFuel (g : StatuteGraph) :
    Nat → Option Nat → String → Option (List String)
  | 0, _, _ => none
  | fuel + 1, maxDepth, node =>
      if maxDepth = some 0 then some []
      else
        (get_dependents g node).foldlM (fun acc dep =>
          match maxDepth with
          | none =>
              match get_descendantsFuel g fuel none dep with
              | none => none
              | some s => some (unionSet (insertSet acc dep) s)
          | some d =>
              if 1 < d then
                match get_descendantsFuel g fuel (some (d - 1)) dep with
                | none => none
                | some s => some (unionSet (insertSet acc dep) s)
              else some (insertSet acc dep)) []

/-- Example for C5: the two-node cycle `A ↔ B`, on which `depth`,
`get_ancestors(·, max_depth=None)` and `get_descendants(·, None)`
recurse forever in the source. -/
def exC5 : StatuteGraph :=
  let g0 := add_node (add_node empty "A" []) "B" []
  add_edge (add_edge g0 "A" "B" "internal_section" [])
    "B" "A" "internal_section" []

/-- Aggregated metrics of `calculate_forward_refs` (`cli.py`, `generate`
command); the float divisions are modelled as exact rationals. -/
structure FwdRefStats where
  total_forward_refs : Nat
  max_blocked : Nat
  avg_blocked : Rat
  pct_zero_blocked : Rat
deriving Repr, DecidableEq

/-- One step of the encoding replay: `deps = set(successors(node))`,
`unmet = len(deps - encoded)`, accumulate the metrics and add `node` to
the encoded set. State: (encoded set, total, max, clean count). -/
def fwdStep (g : StatuteGraph) (st : List String × Nat × Nat × Nat)
    (node : String) : List String × Nat × Nat × Nat :=
  let deps := (get_dependencies g node).dedup
  let unmet := (deps.filter (fun d => decide (d ∉ st.1))).length
  (insertSet st.1 node, st.2.1 + unmet, Nat.max st.2.2.1 unmet,
    st.2.2.2 + if unmet = 0 then 1 else 0)

/-- `calculate_forward_refs(order)`: replay the encoding over `order`
and aggregate total, max, average and the percentage of clean nodes. -/
def calculate_forward_refs (g : StatuteGraph) (order : List String) :
    FwdRefStats :=
  let st := order.foldl (fwdStep g) ([], 0, 0, 0)
  ⟨st.2.1, st.2.2.1, (st.2.1 : Rat) / order.length,
    (st.2.2.2 : Rat) / order.length * 100⟩

/-- Example graph for the C7 witness: the chain `A → B`. -/
def exC7 : StatuteGraph :=
  add_edge (add_node (add_node empty "A" []) "B" []) "A" "B"
    "internal_section" []

/-- Lexicographic comparison of character lists by code point: the model
of Python string comparison used by `sorted(ready)`. -/
def charListLe : List Char → List Char → Bool
  | [], _ => true
  | _ :: _, [] => false
  | a :: as, b :: bs =>
      if a.toNat = b.toNat then charListLe as bs
      else decide (a.toNat < b.toNat)

/-- Python `<=` on strings. -/
def strLe (a b : String) : Bool := charListLe a.data b.data

/-- `get_ready_nodes()`: the nodes not yet encoded all of whose
dependencies are encoded, in Python `sorted` order. -/
def get_ready_nodes (g : StatuteGraph) : List String :=
  sortBy strLe ((nodeIds g).filter (fun n =>
    decide (n ∉ g.encoded) &&
      (get_dependencies g n).all (fun d => decide (d ∈ g.encoded))))

/-- `get_blocked_by(node)`: the unencoded dependencies of `node`. -/
def get_blocked_by (g : StatuteGraph) (node : String) : List String :=
  (get_dependencies g node).filter (fun d => decide (d ∉ g.encoded))

/-- The `get_progress()` dictionary; `blocked` is computed by the
subtraction `total - encoded - ready` on Python ints, hence `Int`. -/
structure Progress where
  total : Nat
  encoded : Nat
  ready : Nat
  blocked : Int
deriving Repr, DecidableEq

/-- `get_progress()`. -/
def get_progress (g : StatuteGraph) : Progress :=
  ⟨num_nodes g, g.encoded.length, (get_ready_nodes g).length,
    (num_nodes g : Int) - g.encoded.length - (get_ready_nodes g).length⟩

/-- Example graph for C8: nodes `A`, `B`, `C` with the single edge
`A → B`. -/
def exC8 : StatuteGraph :=
  add_edge (add_node (add_node (add_node empty "A" []) "B" []) "C" [])
    "A" "B" "internal_section" []

/-- Split a string into its `/`-separated segments, as character lists
(model of `path.split("/")`). -/
def splitSlashAux : List Char → List Char → List (List Char)
  | [], acc => [acc.reverse]
  | c :: rest, acc =>
      if c = '/' then acc.reverse :: splitSlashAux rest []
      else splitSlashAux rest (c :: acc)

def splitSlash (s : String) : List (List Char) := splitSlashAux s.data []

/-- Is the segment of the form `\d+[A-Z]?` — one or more digits followed
by at most one uppercase letter? -/
def isSecSegment (seg : List Char) : Bool :=
  let ds := seg.takeWhile Char.isDigit
  !ds.isEmpty &&
    (match seg.drop ds.length with
     | [] => true
     | [c] => c.isUpper
     | _ => false)

/-- The numeric value of the digit run of a section segment
(`int("".join(c for c in sec if c.isdigit()))`). -/
def segValue (seg : List Char) : Nat :=
  (seg.takeWhile Char.isDigit).foldl (fun n c => 10 * n + (c.toNat - 48)) 0

/-- `get_section_num(path)`: `re.match(r".*/(\d+[A-Z]?)(?:/|$)", path)`
with a greedy `.*` selects the *rightmost* path segment that is preceded
by a slash (hence not the first segment), consists of digits followed by
an optional uppercase letter, and is followed by a slash or the end of
the string; the value is the number formed by its digits. -/
def get_section_num (path : String) : Option Nat :=
  (((splitSlash path).drop 1).filter isSecSegment).getLast?.map segValue

/-- The prefix normalisation of `subgraph`: `prefix if
prefix.startswith("us/") else f"us/statute/{prefix}"`. -/
def normalizePfx (p : String) : String :=
  if "us/".data.isPrefixOf p.data then p else "us/statute/" ++ p

/-- Node selection of `subgraph(prefix, sections)`: the `prefix` filter
applies when the argument is present and non-empty (Python truthiness of
`if prefix:`), matching the citation path against the normalised prefix;
the `sections` filter applies when present and requires an extracted
section number inside the inclusive range. -/
def selectNode (pfx : Option String) (sections : Option (Nat × Nat))
    (node : String) : Bool :=
  (match pfx with
   | none => true
   | some p =>
       if p.data.isEmpty then true
       else (normalizePfx p).data.isPrefixOf node.data) &&
  (match sections with
   | none => true
   | some s =>
       match get_section_num node with
       | none => false
       | some n => decide (s.1 ≤ n ∧ n ≤ s.2))

/-- `subgraph(prefix, sections)`: collect the matching nodes, then build
a fresh `StatuteGraph()` by calling `add_node` for every matching node
(with its attributes) and the raw edge upsert for every parent edge with
both endpoints matching (with its stored data), exactly as the source
loops do. The fresh graph's encoded set starts empty and is never
touched. -/
def subgraph (g : StatuteGraph) (pfx : Option String)
    (sections : Option (Nat × Nat)) : StatuteGraph :=
  let matching := (nodeIds g).filter (selectNode pfx sections)
  let g1 := (g.nodes.filter (fun nd => decide (nd.1 ∈ matching))).foldl
    (fun acc nd => add_node acc nd.1 nd.2) empty
  (g.edges.filter (fun e =>
      decide (e.1.1 ∈ matching) && decide (e.1.2 ∈ matching))).foldl
    (fun acc e => addEdgeRaw acc e.1.1 e.1.2 e.2) g1

/-- `subgraph_from_nodes(nodes)`: the induced subgraph on an explicit
node list (`self._graph.subgraph(nodes).copy()`), with the encoded set
intersected with the kept nodes. -/
def subgraph_from_nodes (g : StatuteGraph) (ns : List String) :
    StatuteGraph :=
  ⟨g.nodes.filter (fun nd => decide (nd.1 ∈ ns)),
   g.edges.filter (fun e => decide (e.1.1 ∈ ns) && decide (e.1.2 ∈ ns)),
   g.encoded.filter (fun x => decide (x ∈ ns))⟩

/-- Example for the C6 counterexample and witness: a single node whose
citation path is `us/statute/26/32`. -/
def exC6 : StatuteGraph := add_node empty "us/statute/26/32" []

/-- Second example for the C6 counterexample: a node whose final path
segment `a` has no digits. -/
def exC6b : StatuteGraph := add_node empty "us/statute/26/32/a" []

/-- Example for the C9 counterexample: two nodes, one of them marked
encoded. -/
def exC9 : StatuteGraph :=
  mark_encoded (add_node (add_node empty "us/statute/26/32" [])
    "us/statute/26/33" []) "us/statute/26/32"

/-- One `add_node`/`add_edge` call, for stating invariants over call
sequences (C10). -/
inductive BuildOp
  | node (id : String) (attrs : Attrs)
  | edge (u v ref_type : String) (attrs : Attrs)

/-- Apply one call. -/
def applyOp (g : StatuteGraph) : BuildOp → StatuteGraph
  | .node id attrs => add_node g id attrs
  | .edge u v rt attrs => add_edge g u v rt attrs

/-- Apply a call sequence to the empty graph. -/
def build (ops : List BuildOp) : StatuteGraph :=
  ops.foldl applyOp empty

end StatuteGraph

/-! ### Theorems -/
namespace StatuteGraph

theorem stepSet_cons (e : String × String) (E : List (String × String))
    (s : List String) : stepSet (e :: E) s = stepSet E (step1 s e) := rfl

theorem sublist_step1 (s : List String) (e : String × String) :
    s.Sublist (step1 s e) := by
  unfold step1; split
  · exact List.sublist_append_left s [e.2]
  · exact List.Sublist.refl s

theorem sublist_stepSet (E : List (String × String)) :
    ∀ s : List String, s.Sublist (stepSet E s) := by
  induction E with
  | nil => intro s; exact List.Sublist.refl s
  | cons e E ih =>
      intro s
      exact (sublist_step1 s e).trans (ih (step1 s e))

theorem nodup_step1 {s : List String} (e : String × String)
    (hs : s.Nodup) : (step1 s e).Nodup := by
  unfold step1; split
  · next h =>
      rw [List.nodup_append]
      exact ⟨hs, List.nodup_singleton _, by
        intro a ha hb
        rw [List.mem_singleton] at hb
        exact h.2 (hb ▸ ha)⟩
  · exact hs

theorem nodup_stepSet (E : List (String × String)) :
    ∀ {s : List String}, s.Nodup → (stepSet E s).Nodup := by
  induction E with
  | nil => intro s hs; exact hs
  | cons e E ih => intro s hs; exact ih (nodup_step1 e hs)

theorem mem_step1 {s : List String} {e : String × String} {x : String}
    (hx : x ∈ step1 s e) : x ∈ s ∨ x = e.2 := by
  unfold step1 at hx; split at hx
  · rcases List.mem_append.mp hx with h | h
    · exact Or.inl h
    · exact Or.inr (List.mem_singleton.mp h)
  · exact Or.inl hx

/-- Every property preserved along the edges and holding on `s` holds on
the saturation of `s`. -/
theorem stepSet_pres (E : List (String × String)) (P : String → Prop)
    (hP : ∀ e ∈ E, P e.1 → P e.2) :
    ∀ s : List String, (∀ x ∈ s, P x) → ∀ x ∈ stepSet E s, P x := by
  induction E with
  | nil => intro s hs x hx; exact hs x hx
  | cons e E ih =>
      intro s hs x hx
      rw [stepSet_cons] at hx
      refine ih (fun e' he' => hP e' (List.mem_cons_of_mem e he')) _ ?_ x hx
      intro y hy
      unfold step1 at hy; split at hy
      · next h =>
          rcases List.mem_append.mp hy with h' | h'
          · exact hs y h'
          · rw [List.mem_singleton] at h'
            exact h' ▸ hP e (List.mem_cons_self e E) (hs e.1 h.1)
      · exact hs y hy

theorem reachAux_zero (E : List (String × String)) (v : String) :
    reachAux E 0 v = [v] := rfl

theorem reachAux_succ (E : List (String × String)) (n : Nat) (v : String) :
    reachAux E (n + 1) v = stepSet E (reachAux E n v) :=
  Function.iterate_succ_apply' (stepSet E) n [v]

theorem reachAux_pres (E : List (String × String)) (P : String → Prop)
    (hP : ∀ e ∈ E, P e.1 → P e.2) {v : String} (hv : P v) :
    ∀ n, ∀ x ∈ reachAux E n v, P x := by
  intro n
  induction n with
  | zero =>
      intro x hx
      rw [reachAux_zero, List.mem_singleton] at hx
      exact hx ▸ hv
  | succ n ih =>
      intro x hx
      rw [reachAux_succ] at hx
      exact stepSet_pres E P hP _ ih x hx

theorem reachAux_sublist {E : List (String × String)} {v : String} :
    ∀ {m n : Nat}, m ≤ n → (reachAux E m v).Sublist (reachAux E n v) := by
  intro m n h
  induction n with
  | zero => rw [Nat.le_zero.mp h]
  | succ n ih =>
      rcases Nat.lt_or_ge m (n + 1) with h' | h'
      · have := ih (Nat.lt_succ_iff.mp h')
        rw [reachAux_succ]
        exact this.trans (sublist_stepSet E _)
      · rw [Nat.le_antisymm h h']

theorem mem_reachAux_self (E : List (String × String)) (n : Nat)
    (v : String) : v ∈ reachAux E n v :=
  (reachAux_sublist (Nat.zero_le n)).subset (List.mem_singleton_self v)

theorem nodup_reachAux (E : List (String × String)) (n : Nat) (v : String) :
    (reachAux E n v).Nodup := by
  induction n with
  | zero => exact List.nodup_singleton v
  | succ n ih => rw [reachAux_succ]; exact nodup_stepSet E ih

theorem step1_eq_of_self {s : List String} {e : String × String}
    (h : step1 s e = s) : e.1 ∈ s → e.2 ∈ s := by
  intro h1
  by_cases h2 : e.2 ∈ s
  · exact h2
  · exfalso
    unfold step1 at h
    rw [if_pos ⟨h1, h2⟩] at h
    have := congrArg List.length h
    simp at this

theorem stepSet_fix_closed {E : List (String × String)} :
    ∀ {s : List String}, stepSet E s = s →
      ∀ e ∈ E, e.1 ∈ s → e.2 ∈ s := by
  induction E with
  | nil => intro s _ e he; exact absurd he (List.not_mem_nil e)
  | cons e' E ih =>
      intro s hfix e he
      rw [stepSet_cons] at hfix
      have hsub1 : s.Sublist (step1 s e') := sublist_step1 s e'
      have hsub2 : (step1 s e').Sublist s := by
        have := sublist_stepSet E (step1 s e')
        rwa [hfix] at this
      have hlen : (step1 s e').length = s.length :=
        Nat.le_antisymm hsub2.length_le hsub1.length_le
      have heq : step1 s e' = s := hsub2.eq_of_length hlen
      rcases List.mem_cons.mp he with rfl | he'
      · exact step1_eq_of_self heq
      · have hfix' : stepSet E s = s := by rw [heq] at hfix; exact hfix
        exact ih hfix' e he'

theorem reachAux_fix_propagate {E : List (String × String)} {v : String}
    {n : Nat} (hfix : stepSet E (reachAux E n v) = reachAux E n v) :
    ∀ m, n ≤ m → reachAux E m v = reachAux E n v := by
  intro m
  induction m with
  | zero => intro h; rw [Nat.le_zero.mp h]
  | succ m ih =>
      intro h
      rcases Nat.lt_or_ge n (m + 1) with h' | h'
      · have hm := ih (Nat.lt_succ_iff.mp h')
        rw [reachAux_succ, hm, hfix]
      · rw [Nat.le_antisymm h h']

theorem reachAux_length_ge {E : List (String × String)} {v : String} :
    ∀ n, (∀ m < n, stepSet E (reachAux E m v) ≠ reachAux E m v) →
      n + 1 ≤ (reachAux E n v).length := by
  intro n
  induction n with
  | zero => intro _; simp [reachAux_zero]
  | succ n ih =>
      intro h
      have h1 : n + 1 ≤ (reachAux E n v).length :=
        ih (fun m hm => h m (Nat.lt_succ_of_lt hm))
      have h2 : stepSet E (reachAux E n v) ≠ reachAux E n v :=
        h n (Nat.lt_succ_self n)
      have hsub : (reachAux E n v).Sublist (reachAux E (n + 1) v) :=
        reachAux_sublist (Nat.le_succ n)
      have hne : reachAux E (n + 1) v ≠ reachAux E n v := by
        rw [reachAux_succ]; exact h2
      have hlt : (reachAux E n v).length < (reachAux E (n + 1) v).length := by
        rcases Nat.lt_or_ge (reachAux E n v).length
            (reachAux E (n + 1) v).length with h' | h'
        · exact h'
        · exact absurd (hsub.eq_of_length
            (Nat.le_antisymm hsub.length_le h')).symm hne
      omega

/-- Elements of `reachSet g v` are `v` itself or nodes of the graph. -/
theorem reachSet_subset_nodes {g : StatuteGraph} (hwf : WF g) {v : String}
    (hv : v ∈ nodeIds g) : ∀ x ∈ reachSet g v, x ∈ nodeIds g := by
  refine reachAux_pres (edgeIds g) (· ∈ nodeIds g) ?_ hv _
  intro e he _
  exact (hwf.2.2 e he).2

/-- After `(nodeIds g).length` passes the reachable set is closed under
the edges: the saturation loop has reached its fixpoint. -/
theorem reachSet_closed {g : StatuteGraph} (hwf : WF g) {v : String}
    (hv : v ∈ nodeIds g) :
    ∀ e ∈ edgeIds g, e.1 ∈ reachSet g v → e.2 ∈ reachSet g v := by
  classical
  set E := edgeIds g with hE
  set N := (nodeIds g).length with hN
  by_cases hex : ∃ m < N, stepSet E (reachAux E m v) = reachAux E m v
  · obtain ⟨m, hm, hfix⟩ := hex
    have heq : reachAux E N v = reachAux E m v :=
      reachAux_fix_propagate hfix N (Nat.le_of_lt hm)
    unfold reachSet
    rw [← hE, ← hN, heq]
    intro e he h1
    exact reachAux_fix_propagate hfix m (Nat.le_refl m) ▸
      stepSet_fix_closed hfix e he h1
  · push_neg at hex
    exfalso
    have hge : N + 1 ≤ (reachAux E N v).length :=
      reachAux_length_ge N (fun m hm => hex m hm)
    have hsub : ∀ x ∈ reachAux E N v, x ∈ nodeIds g := by
      refine reachAux_pres E (· ∈ nodeIds g) ?_ hv N
      intro e he _
      exact (hwf.2.2 e (hE ▸ he)).2
    have hle : (reachAux E N v).length ≤ N := by
      rw [hN]
      exact ((nodup_reachAux E N v).subperm hsub).length_le
    omega

theorem mem_reachSet_self (g : StatuteGraph) (v : String) :
    v ∈ reachSet g v :=
  mem_reachAux_self _ _ v

theorem nodup_reachSet (g : StatuteGraph) (v : String) :
    (reachSet g v).Nodup :=
  nodup_reachAux _ _ v

theorem Reach.trans {E : List (String × String)} {u v w : String}
    (h1 : Reach E u v) (h2 : Reach E v w) : Reach E u w := by
  induction h2 with
  | refl => exact h1
  | tail _ he ih => exact Reach.tail ih he

/-- Soundness: every member of the computed reachable set is reachable. -/
theorem reach_sound {g : StatuteGraph} {v x : String}
    (hx : x ∈ reachSet g v) : Reach (edgeIds g) v x := by
  refine reachAux_pres (edgeIds g) (Reach (edgeIds g) v) ?_ (Reach.refl v)
    _ x hx
  intro e he h
  exact Reach.tail h (by rwa [Prod.mk.eta])

/-- Completeness: every reachable node is in the computed reachable set. -/
theorem reach_complete {g : StatuteGraph} (hwf : WF g) {v x : String}
    (hv : v ∈ nodeIds g) (h : Reach (edgeIds g) v x) :
    x ∈ reachSet g v := by
  induction h with
  | refl => exact mem_reachSet_self g v
  | tail hr he ih => exact reachSet_closed hwf hv _ he ih

/-- Monotonicity: the reachable set of a reachable node is contained in
the original reachable set. -/
theorem reachSet_mono {g : StatuteGraph} (hwf : WF g) {v u : String}
    (hv : v ∈ nodeIds g) (hu : u ∈ reachSet g v) :
    ∀ x ∈ reachSet g u, x ∈ reachSet g v := by
  refine reachAux_pres (edgeIds g) (· ∈ reachSet g v) ?_ hu _
  intro e he h
  exact reachSet_closed hwf hv e he h

theorem sameSCC_refl (g : StatuteGraph) (u : String) : sameSCC g u u :=
  ⟨mem_reachSet_self g u, mem_reachSet_self g u⟩

theorem sameSCC_symm {g : StatuteGraph} {u v : String}
    (h : sameSCC g u v) : sameSCC g v u := ⟨h.2, h.1⟩

theorem sameSCC_trans {g : StatuteGraph} (hwf : WF g) {u v w : String}
    (hu : u ∈ nodeIds g) (hw : w ∈ nodeIds g)
    (h1 : sameSCC g u v) (h2 : sameSCC g v w) : sameSCC g u w :=
  ⟨reachSet_mono hwf hw h2.1 u h1.1, reachSet_mono hwf hu h1.2 w h2.2⟩

/-- Components are reach-set equal: mutually reachable nodes have
permuted (hence equal-sized) reachable sets. -/
theorem reachSet_perm_of_sameSCC {g : StatuteGraph} (hwf : WF g)
    {u v : String} (hu : u ∈ nodeIds g) (hv : v ∈ nodeIds g)
    (h : sameSCC g u v) : (reachSet g u).Perm (reachSet g v) := by
  refine List.Subperm.antisymm ?_ ?_
  · exact (nodup_reachSet g u).subperm
      (fun x hx => reachSet_mono hwf hv h.1 x hx)
  · exact (nodup_reachSet g v).subperm
      (fun x hx => reachSet_mono hwf hu h.2 x hx)

theorem insertBy_perm (le : String → String → Bool) (x : String)
    (l : List String) : (insertBy le x l).Perm (x :: l) := by
  induction l with
  | nil => exact List.Perm.refl _
  | cons y ys ih =>
      unfold insertBy; split
      · exact List.Perm.refl _
      · exact (List.Perm.cons y ih).trans (List.Perm.swap x y ys)

theorem sortBy_perm (le : String → String → Bool) (l : List String) :
    (sortBy le l).Perm l := by
  induction l with
  | nil => exact List.Perm.refl _
  | cons x xs ih =>
      exact (insertBy_perm le x (sortBy le xs)).trans (List.Perm.cons x ih)

theorem mem_insertBy {le : String → String → Bool} {x z : String}
    {l : List String} : z ∈ insertBy le x l ↔ z = x ∨ z ∈ l := by
  rw [(insertBy_perm le x l).mem_iff, List.mem_cons]

theorem pairwise_insertBy {le : String → String → Bool}
    (htot : ∀ a b, le a b = true ∨ le b a = true)
    (htr : ∀ a b c, le a b = true → le b c = true → le a c = true)
    {x : String} {l : List String}
    (hl : l.Pairwise (fun a b => le a b = true)) :
    (insertBy le x l).Pairwise (fun a b => le a b = true) := by
  induction l with
  | nil => exact List.pairwise_singleton _ x
  | cons y ys ih =>
      rw [List.pairwise_cons] at hl
      unfold insertBy; split
      · next hxy =>
          rw [List.pairwise_cons]
          refine ⟨?_, List.pairwise_cons.mpr hl⟩
          intro z hz
          rcases List.mem_cons.mp hz with rfl | hz'
          · exact hxy
          · exact htr x y z hxy (hl.1 z hz')
      · next hxy =>
          rw [List.pairwise_cons]
          refine ⟨?_, ih hl.2⟩
          intro z hz
          rcases mem_insertBy.mp hz with rfl | hz'
          · rcases htot z y with h | h
            · exact absurd h hxy
            · exact h
          · exact hl.1 z hz'

theorem pairwise_sortBy {le : String → String → Bool}
    (htot : ∀ a b, le a b = true ∨ le b a = true)
    (htr : ∀ a b c, le a b = true → le b c = true → le a c = true)
    (l : List String) :
    (sortBy le l).Pairwise (fun a b => le a b = true) := by
  induction l with
  | nil => exact List.Pairwise.nil
  | cons x xs ih => exact pairwise_insertBy htot htr ih

theorem keyLe_total (g : StatuteGraph) :
    ∀ a b, keyLe g a b = true ∨ keyLe g b a = true := by
  intro a b
  unfold keyLe
  rcases Nat.le_total (orderKey g a) (orderKey g b) with h | h
  · exact Or.inl (decide_eq_true h)
  · exact Or.inr (decide_eq_true h)

theorem keyLe_trans (g : StatuteGraph) :
    ∀ a b c, keyLe g a b = true → keyLe g b c = true →
      keyLe g a c = true := by
  intro a b c h1 h2
  unfold keyLe at *
  exact decide_eq_true (Nat.le_trans (of_decide_eq_true h1)
    (of_decide_eq_true h2))

theorem outDegGe_total (g : StatuteGraph) :
    ∀ a b, outDegGe g a b = true ∨ outDegGe g b a = true := by
  intro a b
  unfold outDegGe
  rcases Nat.le_total (out_degree g b) (out_degree g a) with h | h
  · exact Or.inl (decide_eq_true h)
  · exact Or.inr (decide_eq_true h)

theorem indexOf_append_left {l1 l2 : List String} {b : String}
    (hb : b ∈ l1) : (l1 ++ l2).indexOf b = l1.indexOf b := by
  induction l1 with
  | nil => exact absurd hb (List.not_mem_nil b)
  | cons x xs ih =>
      rw [List.cons_append, List.indexOf_cons, List.indexOf_cons]
      by_cases hx : x = b
      · simp [hx]
      · have hb' : b ∈ xs := by
          rcases List.mem_cons.mp hb with h | h
          · exact absurd h.symm hx
          · exact h
        simp [hx, ih hb']

theorem indexOf_append_right {l1 l2 : List String} {a : String}
    (ha : a ∉ l1) :
    (l1 ++ l2).indexOf a = l1.length + l2.indexOf a := by
  induction l1 with
  | nil => simp
  | cons x xs ih =>
      have hx : (x == a) = false := beq_eq_false_iff_ne.mpr
        (fun h => ha (h ▸ List.mem_cons_self x xs))
      have ha' : a ∉ xs := fun h => ha (List.mem_cons_of_mem x h)
      rw [List.cons_append, List.indexOf_cons, hx]
      simp only [cond_false, List.length_cons, ih ha']
      omega

/-- In a duplicate-free concatenation, every member of the left part
comes strictly before every member of the right part. -/
theorem indexOf_lt_of_append {l1 l2 : List String} {a b : String}
    (hnd : (l1 ++ l2).Nodup) (hb : b ∈ l1) (ha : a ∈ l2) :
    (l1 ++ l2).indexOf b < (l1 ++ l2).indexOf a := by
  have hdisj := (List.nodup_append.mp hnd).2.2
  have ha1 : a ∉ l1 := fun h => hdisj h ha
  rw [indexOf_append_left hb, indexOf_append_right ha1]
  calc l1.indexOf b < l1.length := List.indexOf_lt_length.mpr hb
    _ ≤ l1.length + l2.indexOf a := Nat.le_add_right _ _

/-- In a list sorted by a numeric key, a strictly smaller key comes
strictly earlier. -/
theorem sorted_key_indexOf_lt {l : List String} {key : String → Nat}
    (hs : l.Pairwise (fun x y => key x ≤ key y)) (hnd : l.Nodup)
    {a b : String} (ha : a ∈ l) (hb : b ∈ l) (hk : key b < key a) :
    l.indexOf b < l.indexOf a := by
  obtain ⟨xs, ys, rfl⟩ := List.append_of_mem hb
  rw [List.append_cons] at hs hnd ha ⊢
  have hsplit := List.pairwise_append.mp hs
  have hxsb := List.pairwise_append.mp hsplit.1
  have hha : a ∈ ys := by
    rcases List.mem_append.mp ha with h | h
    · rcases List.mem_append.mp h with h' | h'
      · exact absurd (hxsb.2.2 a h' b (List.mem_singleton_self b))
          (Nat.not_le_of_lt hk)
      · rw [List.mem_singleton] at h'
        subst h'
        exact absurd hk (Nat.lt_irrefl _)
    · exact h
  exact indexOf_lt_of_append hnd (List.mem_append.mpr
    (Or.inr (List.mem_singleton_self b))) hha

/-- Two-level version of `sorted_key_indexOf_lt` for block
decompositions: in the flattening of blocks listed in ascending key
order, every element of a strictly-smaller-key block comes strictly
before every element of a strictly-larger-key block. -/
theorem flatMap_indexOf_lt {R : List String} {block : String → List String}
    {key : String → Nat}
    (hs : R.Pairwise (fun x y => key x ≤ key y))
    (hnd : (R.flatMap block).Nodup)
    {rb ra b a : String}
    (hrb : rb ∈ R) (hra : ra ∈ R) (hk : key rb < key ra)
    (hb : b ∈ block rb) (ha : a ∈ block ra) :
    (R.flatMap block).indexOf b < (R.flatMap block).indexOf a := by
  obtain ⟨xs, ys, rfl⟩ := List.append_of_mem hrb
  rw [List.append_cons] at hs hra
  have hsplit := List.pairwise_append.mp hs
  have hxsb := List.pairwise_append.mp hsplit.1
  have hray : ra ∈ ys := by
    rcases List.mem_append.mp hra with h | h
    · rcases List.mem_append.mp h with h' | h'
      · exact absurd (hxsb.2.2 ra h' rb (List.mem_singleton_self rb))
          (Nat.not_le_of_lt hk)
      · rw [List.mem_singleton] at h'
        subst h'
        exact absurd hk (Nat.lt_irrefl _)
    · exact h
  have hre : (xs ++ rb :: ys).flatMap block =
      (xs.flatMap block ++ block rb) ++ ys.flatMap block := by
    rw [List.flatMap_append, List.flatMap_cons, List.append_assoc]
  rw [hre] at hnd ⊢
  refine indexOf_lt_of_append hnd ?_ ?_
  · exact List.mem_append.mpr (Or.inr hb)
  · exact List.mem_flatMap.mpr ⟨ra, hray, ha⟩

theorem mem_sccOf_iff {g : StatuteGraph} {u v : String} :
    v ∈ sccOf g u ↔ v ∈ nodeIds g ∧ sameSCC g u v := by
  simp [sccOf, List.mem_filter]

theorem self_mem_sccOf {g : StatuteGraph} {u : String}
    (hu : u ∈ nodeIds g) : u ∈ sccOf g u :=
  mem_sccOf_iff.mpr ⟨hu, sameSCC_refl g u⟩

theorem sccOf_congr {g : StatuteGraph} (hwf : WF g) {u v : String}
    (hu : u ∈ nodeIds g) (hv : v ∈ nodeIds g) (h : sameSCC g u v) :
    sccOf g u = sccOf g v := by
  unfold sccOf
  refine List.filter_congr ?_
  intro x hx
  apply decide_eq_decide.mpr
  constructor
  · intro hux
    exact sameSCC_trans hwf hv hx (sameSCC_symm h) hux
  · intro hvx
    exact sameSCC_trans hwf hu hx h hvx

theorem head?_sccOf {g : StatuteGraph} {u : String} (hu : u ∈ nodeIds g) :
    (sccOf g u).head? = some (repOf g u) := by
  have hself := self_mem_sccOf hu
  unfold repOf
  cases hc : sccOf g u with
  | nil => rw [hc] at hself; exact absurd hself (List.not_mem_nil u)
  | cons h t => simp

theorem repOf_mem_sccOf {g : StatuteGraph} {u : String}
    (hu : u ∈ nodeIds g) : repOf g u ∈ sccOf g u := by
  have hself := self_mem_sccOf hu
  unfold repOf
  cases hc : sccOf g u with
  | nil => rw [hc] at hself; exact absurd hself (List.not_mem_nil u)
  | cons h t => simp

theorem sameSCC_repOf {g : StatuteGraph} {u : String}
    (hu : u ∈ nodeIds g) : sameSCC g u (repOf g u) :=
  (mem_sccOf_iff.mp (repOf_mem_sccOf hu)).2

theorem repOf_mem_nodes {g : StatuteGraph} {u : String}
    (hu : u ∈ nodeIds g) : repOf g u ∈ nodeIds g :=
  (mem_sccOf_iff.mp (repOf_mem_sccOf hu)).1

theorem isRep_repOf {g : StatuteGraph} (hwf : WF g) {u : String}
    (hu : u ∈ nodeIds g) : isRep g (repOf g u) = true := by
  unfold isRep
  have h1 : sccOf g (repOf g u) = sccOf g u :=
    sccOf_congr hwf (repOf_mem_nodes hu) hu (sameSCC_symm (sameSCC_repOf hu))
  rw [h1, head?_sccOf hu]
  simp

theorem repOf_mem_sccReps {g : StatuteGraph} (hwf : WF g) {u : String}
    (hu : u ∈ nodeIds g) : repOf g u ∈ sccReps g :=
  List.mem_filter.mpr ⟨repOf_mem_nodes hu, isRep_repOf hwf hu⟩

/-- A representative in the same component as `x` is the canonical
representative of `x`: components have exactly one representative. -/
theorem eq_repOf_of_isRep {g : StatuteGraph} (hwf : WF g) {r x : String}
    (hr : r ∈ sccReps g) (hx : x ∈ nodeIds g) (h : sameSCC g r x) :
    r = repOf g x := by
  have hrm := List.mem_filter.mp hr
  have hrn : r ∈ nodeIds g := hrm.1
  have hrep : (sccOf g r).head? = some r := by
    have h2 := hrm.2
    unfold isRep at h2
    exact beq_iff_eq.mp h2
  have hcongr : sccOf g r = sccOf g x := sccOf_congr hwf hrn hx h
  rw [hcongr, head?_sccOf hx] at hrep
  exact (Option.some_inj.mp hrep).symm

theorem sum_map_unique {f : String → Nat} {a : String} :
    ∀ {L : List String}, L.Nodup → a ∈ L →
      (∀ r ∈ L, f r = if r = a then 1 else 0) → (L.map f).sum = 1 := by
  intro L
  induction L with
  | nil => intro _ ha _; exact absurd ha (List.not_mem_nil a)
  | cons x xs ih =>
      intro hnd ha hf
      rw [List.map_cons, List.sum_cons]
      by_cases hx : x = a
      · subst hx
        have hnx : x ∉ xs := (List.nodup_cons.mp hnd).1
        have hzero : (xs.map f).sum = 0 := by
          apply List.sum_eq_zero
          intro y hy
          obtain ⟨r, hr, rfl⟩ := List.mem_map.mp hy
          rw [hf r (List.mem_cons_of_mem _ hr), if_neg]
          intro h; exact hnx (h ▸ hr)
        rw [hf x (List.mem_cons_self x xs), if_pos rfl, hzero]
      · have ha' : a ∈ xs := by
          rcases List.mem_cons.mp ha with h | h
          · exact absurd h.symm hx
          · exact h
        rw [hf x (List.mem_cons_self x xs), if_neg hx, Nat.zero_add]
        exact ih (List.nodup_cons.mp hnd).2 ha'
          (fun r hr => hf r (List.mem_cons_of_mem _ hr))

theorem count_sccOf {g : StatuteGraph} (hwf : WF g) (r x : String) :
    List.count x (sccOf g r) =
      if sameSCC g r x ∧ x ∈ nodeIds g then 1 else 0 := by
  by_cases h : sameSCC g r x ∧ x ∈ nodeIds g
  · rw [if_pos h]
    exact List.count_eq_one_of_mem (hwf.1.filter _)
      (mem_sccOf_iff.mpr ⟨h.2, h.1⟩)
  · rw [if_neg h, List.count_eq_zero_of_not_mem]
    intro hmem
    have hm := mem_sccOf_iff.mp hmem
    exact h ⟨hm.2, hm.1⟩

/-- The cycle-tolerant order is a permutation of the nodes: the
components partition the node set and each component is emitted once. -/
theorem topoWithCycles_perm {g : StatuteGraph} (hwf : WF g) :
    (topoSortWithCycles g).Perm (nodeIds g) := by
  rw [List.perm_iff_count]
  intro x
  unfold topoSortWithCycles
  rw [List.count_flatMap]
  by_cases hx : x ∈ nodeIds g
  · rw [List.count_eq_one_of_mem hwf.1 hx]
    have hmapeq : (sortBy (keyLe g) (sccReps g)).map
        (List.count x ∘ fun r => sortBy (outDegGe g) (sccOf g r)) =
        (sortBy (keyLe g) (sccReps g)).map
          (fun r => if r = repOf g x then 1 else 0) := by
      apply List.map_congr_left
      intro r hr
      have hrReps : r ∈ sccReps g := ((sortBy_perm _ _).mem_iff).mp hr
      simp only [Function.comp]
      rw [(sortBy_perm (outDegGe g) (sccOf g r)).count_eq x, count_sccOf hwf]
      by_cases hrx : sameSCC g r x
      · rw [if_pos ⟨hrx, hx⟩, if_pos (eq_repOf_of_isRep hwf hrReps hx hrx)]
      · rw [if_neg (fun h => hrx h.1), if_neg]
        intro hre
        subst hre
        exact hrx (sameSCC_symm (sameSCC_repOf hx))
    rw [hmapeq]
    refine sum_map_unique ?_ ?_ (fun r _ => rfl)
    · exact (sortBy_perm _ _).symm.nodup (hwf.1.filter _)
    · exact ((sortBy_perm _ _).mem_iff).mpr (repOf_mem_sccReps hwf hx)
  · rw [List.count_eq_zero_of_not_mem hx]
    apply List.sum_eq_zero
    intro y hy
    obtain ⟨r, hr, rfl⟩ := List.mem_map.mp hy
    simp only [Function.comp]
    rw [List.count_eq_zero_of_not_mem]
    intro hmem
    have hsc : x ∈ sccOf g r := ((sortBy_perm _ _).mem_iff).mp hmem
    exact hx (mem_sccOf_iff.mp hsc).1

/-- Every edge whose source lies outside the reach of its target strictly
decreases the component sort key. -/
theorem key_lt_of_edge {g : StatuteGraph} (hwf : WF g) {a b : String}
    (he : (a, b) ∈ edgeIds g) (hnr : a ∉ reachSet g b) :
    orderKey g b < orderKey g a := by
  have ha : a ∈ nodeIds g := (hwf.2.2 _ he).1
  have hb : b ∈ reachSet g a :=
    reachSet_closed hwf ha _ he (mem_reachSet_self g a)
  have hsub : ∀ x ∈ reachSet g b, x ∈ reachSet g a := reachSet_mono hwf ha hb
  have hcons : (a :: reachSet g b).Nodup :=
    List.nodup_cons.mpr ⟨hnr, nodup_reachSet g b⟩
  have hsub2 : a :: reachSet g b ⊆ reachSet g a := by
    intro x hx
    rcases List.mem_cons.mp hx with h | h
    · subst h
      exact mem_reachSet_self g _
    · exact hsub x h
  have hle := (hcons.subperm hsub2).length_le
  rw [List.length_cons] at hle
  unfold orderKey
  omega

theorem hasCycle_iff {g : StatuteGraph} (hwf : WF g) :
    hasCycle g = true ↔ ∃ e ∈ edgeIds g, Reach (edgeIds g) e.2 e.1 := by
  unfold hasCycle
  rw [List.any_eq_true]
  constructor
  · rintro ⟨e, he, hd⟩
    exact ⟨e, he, reach_sound (of_decide_eq_true hd)⟩
  · rintro ⟨e, he, hr⟩
    exact ⟨e, he, decide_eq_true
      (reach_complete hwf (hwf.2.2 e he).2 hr)⟩

theorem not_reach_back_of_acyclic {g : StatuteGraph}
    (hac : hasCycle g = false) {a b : String}
    (he : (a, b) ∈ edgeIds g) : a ∉ reachSet g b := by
  intro h
  have hc : hasCycle g = true := by
    unfold hasCycle
    rw [List.any_eq_true]
    exact ⟨(a, b), he, decide_eq_true h⟩
  rw [hac] at hc
  exact Bool.false_ne_true hc

/-- Every edge of the graph respects the acyclic-case order. -/
theorem acyclic_indexOf_lt {g : StatuteGraph} (hwf : WF g)
    (hac : hasCycle g = false) {a b : String} (he : (a, b) ∈ edgeIds g) :
    (topoSortAcyclic g).indexOf b < (topoSortAcyclic g).indexOf a := by
  have ha : a ∈ nodeIds g := (hwf.2.2 _ he).1
  have hb : b ∈ nodeIds g := (hwf.2.2 _ he).2
  have hkey := key_lt_of_edge hwf he (not_reach_back_of_acyclic hac he)
  have hpair : (topoSortAcyclic g).Pairwise
      (fun x y => orderKey g x ≤ orderKey g y) :=
    (pairwise_sortBy (keyLe_total g) (keyLe_trans g) _).imp
      (fun h => of_decide_eq_true h)
  have hnd : (topoSortAcyclic g).Nodup := (sortBy_perm _ _).symm.nodup hwf.1
  exact sorted_key_indexOf_lt hpair hnd
    (((sortBy_perm _ _).mem_iff).mpr ha) (((sortBy_perm _ _).mem_iff).mpr hb)
    hkey

/-- Every edge between distinct components respects the cycle-tolerant
order. -/
theorem crossSCC_indexOf_lt {g : StatuteGraph} (hwf : WF g) {a b : String}
    (he : (a, b) ∈ edgeIds g) (hns : ¬ sameSCC g a b) :
    (topoSortWithCycles g).indexOf b < (topoSortWithCycles g).indexOf a := by
  have ha : a ∈ nodeIds g := (hwf.2.2 _ he).1
  have hb : b ∈ nodeIds g := (hwf.2.2 _ he).2
  have hba : b ∈ reachSet g a :=
    reachSet_closed hwf ha _ he (mem_reachSet_self g a)
  have hnr : a ∉ reachSet g b := fun h => hns ⟨h, hba⟩
  have hkey : orderKey g b < orderKey g a := key_lt_of_edge hwf he hnr
  have hkeyrb : orderKey g (repOf g b) = orderKey g b :=
    (reachSet_perm_of_sameSCC hwf (repOf_mem_nodes hb) hb
      (sameSCC_symm (sameSCC_repOf hb))).length_eq
  have hkeyra : orderKey g (repOf g a) = orderKey g a :=
    (reachSet_perm_of_sameSCC hwf (repOf_mem_nodes ha) ha
      (sameSCC_symm (sameSCC_repOf ha))).length_eq
  have hpair : (sortBy (keyLe g) (sccReps g)).Pairwise
      (fun x y => orderKey g x ≤ orderKey g y) :=
    (pairwise_sortBy (keyLe_total g) (keyLe_trans g) _).imp
      (fun h => of_decide_eq_true h)
  have hnd : (topoSortWithCycles g).Nodup :=
    (topoWithCycles_perm hwf).symm.nodup hwf.1
  unfold topoSortWithCycles at hnd ⊢
  refine flatMap_indexOf_lt hpair hnd
    (((sortBy_perm _ _).mem_iff).mpr (repOf_mem_sccReps hwf hb))
    (((sortBy_perm _ _).mem_iff).mpr (repOf_mem_sccReps hwf ha))
    (by rw [hkeyrb, hkeyra]; exact hkey) ?_ ?_
  · exact ((sortBy_perm _ _).mem_iff).mpr
      (mem_sccOf_iff.mpr ⟨hb, sameSCC_symm (sameSCC_repOf hb)⟩)
  · exact ((sortBy_perm _ _).mem_iff).mpr
      (mem_sccOf_iff.mpr ⟨ha, sameSCC_symm (sameSCC_repOf ha)⟩)

/-- C1: for every well-formed graph, cyclic or not, the cycle-tolerant
`topological_sort(allow_cycles=True)` returns a total order over all
nodes (a permutation of the node list) in which, for every edge `a → b`
whose endpoints lie in different strongly connected components, `b`
strictly precedes `a`. -/
theorem C1_tolerant_sort_cross_scc_order (g : StatuteGraph) (hwf : WF g)
    (a b : String) (he : (a, b) ∈ edgeIds g) (hns : ¬ sameSCC g a b) :
    ∃ l, topological_sort g true = Except.ok l ∧ l.Perm (nodeIds g) ∧
      l.indexOf b < l.indexOf a := by
  unfold topological_sort
  by_cases hc : hasCycle g = false
  · rw [if_pos hc]
    exact ⟨_, rfl, sortBy_perm _ _, acyclic_indexOf_lt hwf hc he⟩
  · rw [if_neg hc, if_neg (by decide : ¬ true = false)]
    exact ⟨_, rfl, topoWithCycles_perm hwf, crossSCC_indexOf_lt hwf he hns⟩

/-- Witness for C1 at the concrete cyclic graph `A ↔ B`, `C → A`. -/
theorem C1_tolerant_sort_cross_scc_order_witness :
    WF exC1 ∧ (("C", "A") ∈ edgeIds exC1 ∧ ¬ sameSCC exC1 "C" "A") ∧
    (∃ l, topological_sort exC1 true = Except.ok l ∧
      l.Perm (nodeIds exC1) ∧ l.indexOf "A" < l.indexOf "C") :=
  ⟨by decide, ⟨by decide, by decide⟩,
    C1_tolerant_sort_cross_scc_order exC1 (by decide) "C" "A" (by decide)
      (by decide)⟩

/-- C2: for every well-formed graph (cyclic or not),
`get_encoding_sequence` lists every node of the graph exactly once (the
citation paths of the records are a permutation of the node list) and
the `order` fields are exactly the contiguous range `1..N` where `N` is
the number of nodes. -/
theorem C2_encoding_sequence_permutation (g : StatuteGraph) (hwf : WF g) :
    ((get_encoding_sequence g).map (fun s => s.citation_path)).Perm
      (nodeIds g) ∧
    (get_encoding_sequence g).map (fun s => s.order) =
      List.range' 1 (num_nodes g) := by
  obtain ⟨l, hok, hperm⟩ : ∃ l, topological_sort g true = Except.ok l ∧
      l.Perm (nodeIds g) := by
    unfold topological_sort
    by_cases hc : hasCycle g = false
    · rw [if_pos hc]
      exact ⟨_, rfl, sortBy_perm _ _⟩
    · rw [if_neg hc, if_neg (by decide : ¬ true = false)]
      exact ⟨_, rfl, topoWithCycles_perm hwf⟩
  have hlen : l.length = num_nodes g := by
    rw [hperm.length_eq]
    unfold nodeIds num_nodes
    exact List.length_map _ _
  unfold get_encoding_sequence
  rw [hok]
  constructor
  · rw [List.map_map]
    have hcomp : ((fun s : SeqEntry => s.citation_path) ∘
        fun p : Nat × String =>
          (⟨p.2, p.1 + 1, (sccOf g p.2).length, in_degree g p.2,
            out_degree g p.2⟩ : SeqEntry)) = Prod.snd := rfl
    rw [hcomp, List.enum_map_snd]
    exact hperm
  · rw [List.map_map]
    have hcomp : ((fun s : SeqEntry => s.order) ∘
        fun p : Nat × String =>
          (⟨p.2, p.1 + 1, (sccOf g p.2).length, in_degree g p.2,
            out_degree g p.2⟩ : SeqEntry)) =
        fun p : Nat × String => p.1 + 1 := rfl
    rw [hcomp]
    have h1 : (l.enum.map (fun p : Nat × String => p.1 + 1)) =
        (List.range l.length).map (fun i => i + 1) := by
      rw [← List.enum_map_fst l, List.map_map]
      rfl
    rw [h1, List.range'_eq_map_range, ← hlen]
    apply List.map_congr_left
    intro i _
    omega

/-- Witness for C2 at the concrete cyclic graph `A ↔ B`, `C → A`. -/
theorem C2_encoding_sequence_permutation_witness :
    WF exC2 ∧
    (((get_encoding_sequence exC2).map (fun s => s.citation_path)).Perm
      (nodeIds exC2) ∧
    (get_encoding_sequence exC2).map (fun s => s.order) =
      List.range' 1 (num_nodes exC2)) :=
  ⟨by decide, C2_encoding_sequence_permutation exC2 (by decide)⟩

/-- C3: on every well-formed acyclic graph the strict topological sort
succeeds and returns an order over all nodes in which the target of
every edge (the dependency) strictly precedes its source (the
dependent). -/
theorem C3_strict_sort_acyclic (g : StatuteGraph) (hwf : WF g)
    (hac : hasCycle g = false) :
    ∃ l, topological_sort g false = Except.ok l ∧ l.Perm (nodeIds g) ∧
      ∀ e ∈ edgeIds g, l.indexOf e.2 < l.indexOf e.1 := by
  unfold topological_sort
  rw [if_pos hac]
  exact ⟨_, rfl, sortBy_perm _ _, fun e he =>
    acyclic_indexOf_lt hwf hac (by rwa [Prod.mk.eta])⟩

/-- Witness for C3 at the concrete acyclic chain `A → B → C`. -/
theorem C3_strict_sort_acyclic_witness :
    (WF exC3 ∧ hasCycle exC3 = false) ∧
    (∃ l, topological_sort exC3 false = Except.ok l ∧
      l.Perm (nodeIds exC3) ∧
      ∀ e ∈ edgeIds exC3, l.indexOf e.2 < l.indexOf e.1) :=
  ⟨⟨by decide, by decide⟩, C3_strict_sort_acyclic exC3 (by decide)
    (by decide)⟩

/-- C4: `hasCycle` detects exactly the graphs with a directed cycle; on
those, strict `topological_sort` raises the `CycleDetected` error
carrying at most 3 example cycles and never returns an order, while the
cycle-tolerant call on the same graph returns an order instead of
raising; on acyclic graphs the strict call never raises. -/
theorem C4_strict_raises_on_cycles (g : StatuteGraph) (hwf : WF g) :
    (hasCycle g = true ↔ ∃ e ∈ edgeIds g, Reach (edgeIds g) e.2 e.1) ∧
    (hasCycle g = true →
      (∃ err, topological_sort g false = Except.error err ∧
        err.cycles.length ≤ 3) ∧
      (∀ l, topological_sort g false ≠ Except.ok l) ∧
      (∃ l, topological_sort g true = Except.ok l)) ∧
    (hasCycle g = false → ∃ l, topological_sort g false = Except.ok l) := by
  refine ⟨hasCycle_iff hwf, ?_, ?_⟩
  · intro hc
    have hne : ¬ hasCycle g = false := by rw [hc]; decide
    unfold topological_sort
    rw [if_neg hne]
    refine ⟨⟨⟨(simpleCycles g).take 3⟩, by rw [if_pos rfl], ?_⟩, ?_, ?_⟩
    · rw [List.length_take]
      exact Nat.min_le_left 3 _
    · intro l h
      rw [if_pos rfl] at h
      exact Except.noConfusion h
    · rw [if_neg hne, if_neg (by decide : ¬ true = false)]
      exact ⟨_, rfl⟩
  · intro hac
    unfold topological_sort
    rw [if_pos hac]
    exact ⟨_, rfl⟩

/-- Witness for C4 at the concrete two-node cycle `A ↔ B`. -/
theorem C4_strict_raises_on_cycles_witness :
    (WF exC4 ∧ hasCycle exC4 = true) ∧
    ((∃ err, topological_sort exC4 false = Except.error err ∧
        err.cycles.length ≤ 3) ∧
      (∀ l, topological_sort exC4 false ≠ Except.ok l) ∧
      (∃ l, topological_sort exC4 true = Except.ok l)) :=
  ⟨⟨by decide, by decide⟩,
    (C4_strict_raises_on_cycles exC4 (by decide)).2.1 (by decide)⟩

/-- A monadic fold over a list dies as soon as it reaches an element on
which the step function always fails. -/
theorem foldlM_none {α : Type} {f : α → String → Option α} {b : String} :
    ∀ {l : List String}, b ∈ l → (∀ acc, f acc b = none) →
      ∀ acc, l.foldlM f acc = none := by
  intro l
  induction l with
  | nil => intro hb; exact absurd hb (List.not_mem_nil b)
  | cons x xs ih =>
      intro hb hf acc
      rw [List.foldlM_cons]
      cases hx : f acc x with
      | none => rfl
      | some a =>
          have hbx : b ∈ xs := by
            rcases List.mem_cons.mp hb with h | h
            · subst h
              rw [hf acc] at hx
              exact Option.noConfusion hx
            · exact h
          exact ih hbx hf a

theorem depthFuel_none_step {g : StatuteGraph} {v b : String} {n : Nat}
    (hb : b ∈ get_dependencies g v) (hnone : depthFuel g n b = none) :
    depthFuel g (n + 1) v = none := by
  have hcond : ¬ ((get_dependencies g v).isEmpty = true) := by
    intro h
    rw [List.isEmpty_iff] at h
    rw [h] at hb
    exact absurd hb (List.not_mem_nil b)
  have hf : ∀ acc : Nat, (fun acc dep =>
      match depthFuel g n dep with
      | none => none
      | some d => some (Nat.max acc d)) acc b = (none : Option Nat) := by
    intro acc
    simp only [hnone]
  have hfold : (get_dependencies g v).foldlM (fun acc dep =>
      match depthFuel g n dep with
      | none => none
      | some d => some (Nat.max acc d)) 0 = (none : Option Nat) :=
    foldlM_none hb hf 0
  simp only [depthFuel]
  rw [if_neg hcond, hfold]

theorem ancestorsFuel_none_step {g : StatuteGraph} {v b : String} {n : Nat}
    (hb : b ∈ get_dependencies g v)
    (hnone : get_ancestorsFuel g n none b = none) :
    get_ancestorsFuel g (n + 1) none v = none := by
  have hf : ∀ acc : List String, (fun acc dep =>
      match (none : Option Nat) with
      | none =>
          match get_ancestorsFuel g n none dep with
          | none => none
          | some s => some (unionSet (insertSet acc dep) s)
      | some d =>
          if 1 < d then
            match get_ancestorsFuel g n (some (d - 1)) dep with
            | none => none
            | some s => some (unionSet (insertSet acc dep) s)
          else some (insertSet acc dep)) acc b = (none : Option (List String)) := by
    intro acc
    simp only [hnone]
  simp only [get_ancestorsFuel]
  rw [if_neg (fun h => Option.noConfusion h), foldlM_none hb hf]

theorem descendantsFuel_none_step {g : StatuteGraph} {v b : String}
    {n : Nat} (hb : b ∈ get_dependents g v)
    (hnone : get_descendantsFuel g n none b = none) :
    get_descendantsFuel g (n + 1) none v = none := by
  have hf : ∀ acc : List String, (fun acc dep =>
      match (none : Option Nat) with
      | none =>
          match get_descendantsFuel g n none dep with
          | none => none
          | some s => some (unionSet (insertSet acc dep) s)
      | some d =>
          if 1 < d then
            match get_descendantsFuel g n (some (d - 1)) dep with
            | none => none
            | some s => some (unionSet (insertSet acc dep) s)
          else some (insertSet acc dep)) acc b = (none : Option (List String)) := by
    intro acc
    simp only [hnone]
  simp only [get_descendantsFuel]
  rw [if_neg (fun h => Option.noConfusion h), foldlM_none hb hf]

/-- C5 (divergence of the source): on the two-node cycle `A ↔ B`, the
recursions of `depth`, `get_ancestors(·, max_depth=None)` and
`get_descendants(·, max_depth=None)` never bottom out — no finite
call-stack fuel produces a result, i.e. the Python code recurses until
`RecursionError` instead of terminating. -/
theorem C5_depth_closure_diverge_on_cycle : ∀ n : Nat,
    (depthFuel exC5 n "A" = none ∧ depthFuel exC5 n "B" = none) ∧
    (get_ancestorsFuel exC5 n none "A" = none ∧
      get_ancestorsFuel exC5 n none "B" = none) ∧
    (get_descendantsFuel exC5 n none "A" = none ∧
      get_descendantsFuel exC5 n none "B" = none) := by
  intro n
  induction n with
  | zero => exact ⟨⟨rfl, rfl⟩, ⟨rfl, rfl⟩, ⟨rfl, rfl⟩⟩
  | succ n ih =>
      refine ⟨⟨?_, ?_⟩, ⟨?_, ?_⟩, ⟨?_, ?_⟩⟩
      · exact depthFuel_none_step (by decide) ih.1.2
      · exact depthFuel_none_step (by decide) ih.1.1
      · exact ancestorsFuel_none_step (by decide) ih.2.1.2
      · exact ancestorsFuel_none_step (by decide) ih.2.1.1
      · exact descendantsFuel_none_step (by decide) ih.2.2.2
      · exact descendantsFuel_none_step (by decide) ih.2.2.1

theorem mem_insertSet {s : List String} {x y : String} :
    y ∈ insertSet s x ↔ y ∈ s ∨ y = x := by
  unfold insertSet
  split
  · next h =>
      constructor
      · exact Or.inl
      · intro hy
        rcases hy with hy | rfl
        · exact hy
        · exact h
  · next h =>
      rw [List.mem_append, List.mem_singleton]

theorem mem_get_dependencies {g : StatuteGraph} {a b : String} :
    b ∈ get_dependencies g a ↔ (a, b) ∈ edgeIds g := by
  unfold get_dependencies
  constructor
  · intro h
    obtain ⟨e, he, rfl⟩ := List.mem_map.mp h
    have hm := List.mem_filter.mp he
    have heq : e.1 = a := by simpa using hm.2
    rw [← heq, Prod.mk.eta]
    exact hm.1
  · intro h
    exact List.mem_map.mpr ⟨(a, b), List.mem_filter.mpr ⟨h, by simp⟩, rfl⟩

theorem unmet_zero_iff (g : StatuteGraph) (acc : List String) (x : String) :
    ((get_dependencies g x).dedup.filter
        (fun d => decide (d ∉ acc))).length = 0 ↔
      ∀ d ∈ get_dependencies g x, d ∈ acc := by
  rw [List.length_eq_zero, List.filter_eq_nil_iff]
  constructor
  · intro h d hd
    have hnn := h d (List.mem_dedup.mpr hd)
    simpa using hnn
  · intro h d hd
    simp only [decide_eq_true_eq, Decidable.not_not]
    exact h d (List.mem_dedup.mp hd)

theorem fwd_total_ge (g : StatuteGraph) :
    ∀ (rest : List String) (st : List String × Nat × Nat × Nat),
      st.2.1 ≤ (rest.foldl (fwdStep g) st).2.1 := by
  intro rest
  induction rest with
  | nil => intro st; exact Nat.le_refl _
  | cons x xs ih =>
      intro st
      rw [List.foldl_cons]
      calc st.2.1 ≤ (fwdStep g st x).2.1 := Nat.le_add_right _ _
        _ ≤ _ := ih (fwdStep g st x)

/-- The replayed total stays zero exactly when, at every position of the
order, every dependency of the node there already occurs in the encoded
set or earlier in the order. -/
theorem fwd_total_eq_zero_iff (g : StatuteGraph) :
    ∀ (rest acc : List String) (m c : Nat),
      ((rest.foldl (fwdStep g) (acc, 0, m, c)).2.1 = 0 ↔
        ∀ r1 x r2, rest = r1 ++ x :: r2 →
          ∀ d ∈ get_dependencies g x, d ∈ acc ++ r1) := by
  intro rest
  induction rest with
  | nil =>
      intro acc m c
      rw [List.foldl_nil]
      constructor
      · intro _ r1 x r2 hsplit
        exact absurd hsplit.symm (List.append_ne_nil_of_right_ne_nil r1
          (List.cons_ne_nil x r2))
      · intro _
        rfl
  | cons y xs ih =>
      intro acc m c
      rw [List.foldl_cons]
      by_cases hu : ((get_dependencies g y).dedup.filter
          (fun d => decide (d ∉ acc))).length = 0
      · have hstep : fwdStep g (acc, 0, m, c) y =
            (insertSet acc y, 0, Nat.max m 0, c + 1) := by
          simp only [fwdStep]
          rw [hu]
          simp
        rw [hstep, ih]
        constructor
        · intro h r1 x r2 hsplit d hd
          cases r1 with
          | nil =>
              simp only [List.nil_append] at hsplit
              obtain ⟨rfl, rfl⟩ := List.cons.injEq .. ▸ hsplit
              have hin := (unmet_zero_iff g acc y).mp hu d hd
              simpa using hin
          | cons z r1' =>
              simp only [List.cons_append, List.cons.injEq] at hsplit
              obtain ⟨rfl, hxs⟩ := hsplit
              have hin := h r1' x r2 hxs d hd
              rw [List.mem_append] at hin ⊢
              rcases hin with hin | hin
              · rcases mem_insertSet.mp hin with hin | rfl
                · exact Or.inl hin
                · exact Or.inr (List.mem_cons_self _ _)
              · exact Or.inr (List.mem_cons_of_mem _ hin)
        · intro h r1 x r2 hsplit d hd
          have hin := h (y :: r1) x r2 (by rw [hsplit]; rfl) d hd
          rw [List.mem_append] at hin ⊢
          rcases hin with hin | hin
          · exact Or.inl (mem_insertSet.mpr (Or.inl hin))
          · rcases List.mem_cons.mp hin with rfl | hin
            · exact Or.inl (mem_insertSet.mpr (Or.inr rfl))
            · exact Or.inr hin
      · constructor
        · intro h
          exfalso
          have hge := fwd_total_ge g xs (fwdStep g (acc, 0, m, c) y)
          have htot : (fwdStep g (acc, 0, m, c) y).2.1 =
              ((get_dependencies g y).dedup.filter
                (fun d => decide (d ∉ acc))).length := by
            simp only [fwdStep]
            exact Nat.zero_add _
          rw [htot] at hge
          rw [h] at hge
          exact hu (Nat.le_zero.mp hge)
        · intro h
          exact absurd ((unmet_zero_iff g acc y).mpr (fun d hd => by
            have hin := h [] y xs rfl d hd
            simpa using hin)) hu

/-- C7: for every well-formed graph and every total order over all its
nodes, the comparator replay yields `total_forward_refs = 0` exactly
when the order is a dependency-respecting linearisation: for every edge
`a → b`, `b` appears strictly before `a` in the order. -/
theorem C7_forward_refs_zero_iff (g : StatuteGraph) (hwf : WF g)
    (order : List String) (hperm : order.Perm (nodeIds g)) :
    ((calculate_forward_refs g order).total_forward_refs = 0 ↔
      ∀ e ∈ edgeIds g, order.indexOf e.2 < order.indexOf e.1) := by
  have hnd : order.Nodup := hperm.symm.nodup hwf.1
  have hcalc : (calculate_forward_refs g order).total_forward_refs =
      (order.foldl (fwdStep g) ([], 0, 0, 0)).2.1 := rfl
  rw [hcalc, fwd_total_eq_zero_iff]
  constructor
  · intro h e he
    have ha : e.1 ∈ order := hperm.mem_iff.mpr (hwf.2.2 e he).1
    obtain ⟨r1, r2, hsplit⟩ := List.append_of_mem ha
    have hd : e.2 ∈ get_dependencies g e.1 := by
      rw [mem_get_dependencies, Prod.mk.eta]
      exact he
    have hin := h r1 e.1 r2 hsplit e.2 hd
    rw [List.nil_append] at hin
    rw [hsplit]
    have hnotr1 : e.1 ∉ r1 := by
      rw [hsplit, List.nodup_middle, List.nodup_cons] at hnd
      intro hc
      exact hnd.1 (List.mem_append.mpr (Or.inl hc))
    rw [indexOf_append_left hin, indexOf_append_right hnotr1,
      List.indexOf_cons_self]
    have := List.indexOf_lt_length.mpr hin
    omega
  · intro h r1 x r2 hsplit d hd
    have hedge : (x, d) ∈ edgeIds g := mem_get_dependencies.mp hd
    have hlt := h _ hedge
    rw [List.nil_append]
    by_cases hdr : d ∈ r1
    · exact hdr
    · exfalso
      have hnotr1 : x ∉ r1 := by
        rw [hsplit, List.nodup_middle, List.nodup_cons] at hnd
        intro hc
        exact hnd.1 (List.mem_append.mpr (Or.inl hc))
      rw [hsplit, indexOf_append_right hdr, indexOf_append_right hnotr1,
        List.indexOf_cons_self] at hlt
      omega

/-- Witness for C7 at the chain `A → B` with the valid order `[B, A]`. -/
theorem C7_forward_refs_zero_iff_witness :
    (WF exC7 ∧ (["B", "A"] : List String).Perm (nodeIds exC7)) ∧
    ((calculate_forward_refs exC7 ["B", "A"]).total_forward_refs = 0 ↔
      ∀ e ∈ edgeIds exC7,
        (["B", "A"] : List String).indexOf e.2 <
          (["B", "A"] : List String).indexOf e.1) :=
  ⟨⟨by decide, by decide⟩,
    C7_forward_refs_zero_iff exC7 (by decide) ["B", "A"] (by decide)⟩

theorem charListLe_total : ∀ a b : List Char,
    charListLe a b = true ∨ charListLe b a = true := by
  intro a
  induction a with
  | nil => intro b; exact Or.inl rfl
  | cons x xs ih =>
      intro b
      cases b with
      | nil => exact Or.inr rfl
      | cons y ys =>
          simp only [charListLe]
          by_cases hxy : x.toNat = y.toNat
          · rw [if_pos hxy, if_pos hxy.symm]
            exact ih ys
          · rw [if_neg hxy, if_neg (fun h => hxy h.symm)]
            rcases Nat.lt_or_ge x.toNat y.toNat with h | h
            · exact Or.inl (decide_eq_true h)
            · exact Or.inr (decide_eq_true
                (Nat.lt_of_le_of_ne h (fun hh => hxy hh.symm)))

theorem charListLe_trans : ∀ a b c : List Char,
    charListLe a b = true → charListLe b c = true →
      charListLe a c = true := by
  intro a
  induction a with
  | nil => intro b c _ _; rfl
  | cons x xs ih =>
      intro b c h1 h2
      cases b with
      | nil => exact absurd h1 (by simp [charListLe])
      | cons y ys =>
          cases c with
          | nil => exact absurd h2 (by simp [charListLe])
          | cons z zs =>
              simp only [charListLe] at h1 h2 ⊢
              by_cases hxy : x.toNat = y.toNat
              · rw [if_pos hxy] at h1
                by_cases hyz : y.toNat = z.toNat
                · rw [if_pos hyz] at h2
                  rw [if_pos (hxy.trans hyz)]
                  exact ih ys zs h1 h2
                · rw [if_neg hyz] at h2
                  have hlt : y.toNat < z.toNat := of_decide_eq_true h2
                  rw [if_neg (by omega)]
                  exact decide_eq_true (by omega)
              · rw [if_neg hxy] at h1
                have hlt1 : x.toNat < y.toNat := of_decide_eq_true h1
                by_cases hyz : y.toNat = z.toNat
                · rw [if_neg (by omega)]
                  exact decide_eq_true (by omega)
                · rw [if_neg hyz] at h2
                  have hlt2 : y.toNat < z.toNat := of_decide_eq_true h2
                  rw [if_neg (by omega)]
                  exact decide_eq_true (by omega)

theorem strLe_total (a b : String) : strLe a b = true ∨ strLe b a = true :=
  charListLe_total a.data b.data

theorem strLe_trans (a b c : String) (h1 : strLe a b = true)
    (h2 : strLe b c = true) : strLe a c = true :=
  charListLe_trans a.data b.data c.data h1 h2

/-- C8: `get_ready_nodes` returns, in sorted order, exactly the graph
nodes not in the encoded set all of whose dependencies are in the
encoded set; `get_progress` satisfies `blocked = total - encoded -
ready`; and on nodes `A,B,C` with the single edge `A → B`,
`get_progress()` is `{total 3, encoded 0, ready 2, blocked 1}` and,
after `mark_encoded B`, `{total 3, encoded 1, ready 2, blocked 0}`. -/
theorem C8_ready_and_progress :
    (∀ g : StatuteGraph, ∀ x, x ∈ get_ready_nodes g ↔
      x ∈ nodeIds g ∧ x ∉ g.encoded ∧
        ∀ d ∈ get_dependencies g x, d ∈ g.encoded) ∧
    (∀ g : StatuteGraph, (get_ready_nodes g).Pairwise
      (fun a b => strLe a b = true)) ∧
    (∀ g : StatuteGraph, (get_progress g).blocked =
      ((get_progress g).total : Int) - (get_progress g).encoded -
        (get_progress g).ready) ∧
    (get_progress exC8 = ⟨3, 0, 2, 1⟩ ∧
      get_progress (mark_encoded exC8 "B") = ⟨3, 1, 2, 0⟩) := by
  refine ⟨?_, ?_, ?_, by decide, by decide⟩
  · intro g x
    unfold get_ready_nodes
    rw [(sortBy_perm _ _).mem_iff, List.mem_filter]
    simp only [Bool.and_eq_true, decide_eq_true_eq, List.all_eq_true,
      and_assoc]
  · intro g
    exact pairwise_sortBy strLe_total strLe_trans _
  · intro g
    rfl

theorem add_node_of_not_mem {g : StatuteGraph} {id : String}
    {attrs : Attrs} (h : id ∉ nodeIds g) :
    add_node g id attrs = ⟨g.nodes ++ [(id, attrs)], g.edges, g.encoded⟩ := by
  unfold add_node
  rw [if_neg h]

theorem foldl_add_node :
    ∀ (L : List (String × Attrs)) (g0 : StatuteGraph),
      (L.map Prod.fst).Nodup → (∀ p ∈ L, p.1 ∉ nodeIds g0) →
      L.foldl (fun acc nd => add_node acc nd.1 nd.2) g0 =
        ⟨g0.nodes ++ L, g0.edges, g0.encoded⟩ := by
  intro L
  induction L with
  | nil => intro g0 _ _; simp
  | cons nd L ih =>
      intro g0 hnd hfresh
      rw [List.foldl_cons,
        add_node_of_not_mem (hfresh nd (List.mem_cons_self nd L))]
      rw [ih ⟨g0.nodes ++ [(nd.1, nd.2)], g0.edges, g0.encoded⟩
        (List.nodup_cons.mp hnd).2 ?_]
      · simp
      · intro p hp hc
        unfold nodeIds at hc
        simp only [List.map_append, List.map_cons, List.map_nil,
          List.mem_append, List.mem_singleton] at hc
        rcases hc with hc | hc
        · exact hfresh p (List.mem_cons_of_mem nd hp) hc
        · have hnin : nd.1 ∉ L.map Prod.fst := (List.nodup_cons.mp hnd).1
          exact hnin (hc ▸ List.mem_map_of_mem Prod.fst hp)

theorem ensureNode_edges (g : StatuteGraph) (id : String) :
    (ensureNode g id).edges = g.edges := by
  unfold ensureNode; split <;> rfl

theorem ensureNode_encoded (g : StatuteGraph) (id : String) :
    (ensureNode g id).encoded = g.encoded := by
  unfold ensureNode; split <;> rfl

theorem mem_nodeIds_ensureNode {g : StatuteGraph} {x : String}
    (id : String) (h : x ∈ nodeIds g) : x ∈ nodeIds (ensureNode g id) := by
  unfold ensureNode; split
  · exact h
  · unfold nodeIds at h ⊢
    simp only [List.map_append, List.mem_append]
    exact Or.inl h

theorem self_mem_ensureNode (g : StatuteGraph) (id : String) :
    id ∈ nodeIds (ensureNode g id) := by
  unfold ensureNode; split
  · next h => exact h
  · unfold nodeIds
    simp

theorem nodup_ensureNode {g : StatuteGraph} (id : String)
    (h : (nodeIds g).Nodup) : (nodeIds (ensureNode g id)).Nodup := by
  unfold ensureNode; split
  · exact h
  · next hn =>
      unfold nodeIds
      simp only [List.map_append, List.map_cons, List.map_nil]
      rw [List.nodup_append]
      refine ⟨h, List.nodup_singleton _, ?_⟩
      intro a ha hb
      rw [List.mem_singleton] at hb
      exact hn (hb ▸ ha)

theorem addEdgeRaw_nodes (g : StatuteGraph) (u v : String) (data : Attrs) :
    (addEdgeRaw g u v data).nodes = (ensureNode (ensureNode g u) v).nodes := by
  simp only [addEdgeRaw]
  split <;> rfl

theorem addEdgeRaw_encoded (g : StatuteGraph) (u v : String)
    (data : Attrs) : (addEdgeRaw g u v data).encoded = g.encoded := by
  have h2 : (ensureNode (ensureNode g u) v).encoded = g.encoded := by
    rw [ensureNode_encoded, ensureNode_encoded]
  simp only [addEdgeRaw]
  split <;> exact h2

theorem add_node_encoded (g : StatuteGraph) (id : String) (attrs : Attrs) :
    (add_node g id attrs).encoded = g.encoded := by
  unfold add_node; split <;> rfl

theorem add_node_edges (g : StatuteGraph) (id : String) (attrs : Attrs) :
    (add_node g id attrs).edges = g.edges := by
  unfold add_node; split <;> rfl

theorem addEdgeRaw_fresh_present {g : StatuteGraph} {u v : String}
    {data : Attrs} (hu : u ∈ nodeIds g) (hv : v ∈ nodeIds g)
    (he : (u, v) ∉ edgeIds g) :
    addEdgeRaw g u v data =
      ⟨g.nodes, g.edges ++ [((u, v), data)], g.encoded⟩ := by
  have h1 : ensureNode g u = g := by unfold ensureNode; rw [if_pos hu]
  have h2 : ensureNode (ensureNode g u) v = g := by
    rw [h1]; unfold ensureNode; rw [if_pos hv]
  simp only [addEdgeRaw, h2]
  rw [if_neg he]

theorem foldl_addEdgeRaw :
    ∀ (EL : List ((String × String) × Attrs)) (g0 : StatuteGraph),
      (EL.map Prod.fst).Nodup →
      (∀ e ∈ EL, e.1.1 ∈ nodeIds g0 ∧ e.1.2 ∈ nodeIds g0) →
      (∀ e ∈ EL, e.1 ∉ edgeIds g0) →
      EL.foldl (fun acc e => addEdgeRaw acc e.1.1 e.1.2 e.2) g0 =
        ⟨g0.nodes, g0.edges ++ EL, g0.encoded⟩ := by
  intro EL
  induction EL with
  | nil => intro g0 _ _ _; simp
  | cons e EL ih =>
      intro g0 hnd hmem hfresh
      rw [List.foldl_cons]
      have hself := hmem e (List.mem_cons_self e EL)
      have hstep : addEdgeRaw g0 e.1.1 e.1.2 e.2 =
          ⟨g0.nodes, g0.edges ++ [e], g0.encoded⟩ := by
        rw [addEdgeRaw_fresh_present hself.1 hself.2
          (by rw [Prod.mk.eta]; exact hfresh e (List.mem_cons_self e EL))]
      rw [hstep]
      rw [ih ⟨g0.nodes, g0.edges ++ [e], g0.encoded⟩
        (List.nodup_cons.mp hnd).2 ?_ ?_]
      · simp
      · intro e' he'
        exact hmem e' (List.mem_cons_of_mem e he')
      · intro e' he' hc
        unfold edgeIds at hc
        simp only [List.map_append, List.map_cons, List.map_nil,
          List.mem_append, List.mem_singleton] at hc
        rcases hc with hc | hc
        · exact hfresh e' (List.mem_cons_of_mem e he') hc
        · have hnin : e.1 ∉ EL.map Prod.fst := (List.nodup_cons.mp hnd).1
          exact hnin (hc ▸ List.mem_map_of_mem Prod.fst he')

theorem map_fst_filter_decide (matching : List String) :
    ∀ l : List (String × Attrs),
      (l.filter (fun nd => decide (nd.1 ∈ matching))).map Prod.fst =
        (l.map Prod.fst).filter (fun x => decide (x ∈ matching)) := by
  intro l
  induction l with
  | nil => rfl
  | cons x xs ih =>
      by_cases hx : x.1 ∈ matching <;>
        simp [List.filter_cons, hx, ih]

theorem map_fst_filter_decide2 (matching : List String) :
    ∀ l : List ((String × String) × Attrs),
      (l.filter (fun e => decide (e.1.1 ∈ matching) &&
          decide (e.1.2 ∈ matching))).map Prod.fst =
        (l.map Prod.fst).filter (fun e => decide (e.1 ∈ matching) &&
          decide (e.2 ∈ matching)) := by
  intro l
  induction l with
  | nil => rfl
  | cons x xs ih =>
      by_cases h1 : x.1.1 ∈ matching <;> by_cases h2 : x.1.2 ∈ matching <;>
        simp [List.filter_cons, h1, h2, ih]

/-- The value of `subgraph`: the filtered nodes, the filtered edges, and
an empty encoded set. -/
theorem subgraph_eq (g : StatuteGraph) (hwf : WF g) (pfx : Option String)
    (sections : Option (Nat × Nat)) :
    subgraph g pfx sections =
      ⟨g.nodes.filter (fun nd =>
          decide (nd.1 ∈ (nodeIds g).filter (selectNode pfx sections))),
       g.edges.filter (fun e =>
          decide (e.1.1 ∈ (nodeIds g).filter (selectNode pfx sections)) &&
          decide (e.1.2 ∈ (nodeIds g).filter (selectNode pfx sections))),
       []⟩ := by
  simp only [subgraph]
  set matching := (nodeIds g).filter (selectNode pfx sections) with hmatch
  set L := g.nodes.filter (fun nd => decide (nd.1 ∈ matching)) with hLdef
  set EL := g.edges.filter (fun e =>
    decide (e.1.1 ∈ matching) && decide (e.1.2 ∈ matching)) with hELdef
  have hL : (L.map Prod.fst).Nodup := by
    rw [hLdef, map_fst_filter_decide]
    exact hwf.1.filter _
  have h1 : L.foldl (fun acc nd => add_node acc nd.1 nd.2) empty =
      ⟨L, [], []⟩ := by
    rw [foldl_add_node L empty hL
      (fun p _ hp => absurd hp (List.not_mem_nil _))]
    simp [empty]
  rw [h1]
  have hnodeIds : nodeIds (⟨L, [], []⟩ : StatuteGraph) =
      (nodeIds g).filter (fun x => decide (x ∈ matching)) := by
    show L.map Prod.fst = _
    rw [hLdef, map_fst_filter_decide]
    rfl
  have hEnd : ∀ e ∈ EL, e.1.1 ∈ nodeIds (⟨L, [], []⟩ : StatuteGraph) ∧
      e.1.2 ∈ nodeIds (⟨L, [], []⟩ : StatuteGraph) := by
    intro e he
    rw [hELdef] at he
    have hm := List.mem_filter.mp he
    have hc := hm.2
    rw [Bool.and_eq_true, decide_eq_true_eq, decide_eq_true_eq] at hc
    rw [hnodeIds]
    have hc1 := hc.1
    have hc2 := hc.2
    rw [hmatch] at hc1 hc2
    exact ⟨List.mem_filter.mpr ⟨(List.mem_filter.mp hc1).1,
        decide_eq_true hc.1⟩,
      List.mem_filter.mpr ⟨(List.mem_filter.mp hc2).1,
        decide_eq_true hc.2⟩⟩
  have hndE : (EL.map Prod.fst).Nodup := by
    rw [hELdef, map_fst_filter_decide2]
    exact hwf.2.1.filter _
  rw [foldl_addEdgeRaw EL ⟨L, [], []⟩ hndE hEnd
    (fun e _ hc => absurd hc (List.not_mem_nil _))]
  simp

/-- C6 as stated is false on the code. First, `subgraph(prefix="26/32")`
keeps the node `us/statute/26/32` although that citation path does not
start with the literal string `"26/32"`: the code first normalises the
prefix to `us/statute/26/32`. Second, the section filter does not parse
digits from the final path segment: `subgraph(sections=(1,100))` keeps
`us/statute/26/32/a` although its final segment `a` has no digits,
because `get_section_num` reads the rightmost numeric segment `32`. -/
theorem C6_subgraph_literal_selection_counterexample :
    ("us/statute/26/32" ∈ nodeIds (subgraph exC6 (some "26/32") none) ∧
      "26/32".data.isPrefixOf "us/statute/26/32".data = false) ∧
    ("us/statute/26/32/a" ∈
        nodeIds (subgraph exC6b none (some (1, 100))) ∧
      (splitSlash "us/statute/26/32/a").getLast? = some ['a'] ∧
      'a'.isDigit = false ∧
      get_section_num "us/statute/26/32/a" = some 32) := by decide

/-- C6 (amended): `subgraph(prefix, sections)` contains exactly the
nodes that pass `selectNode`: the citation path must start with the
*normalised* prefix (`prefix` itself when it starts with `"us/"`, else
`"us/statute/" + prefix`; an empty prefix disables the filter), and the
section number extracted by `get_section_num` — from the rightmost
slash-preceded path segment made of digits with an optional trailing
uppercase letter — must lie in the inclusive range; the edges are
exactly the parent edges with both endpoints kept. -/
theorem C6_subgraph_normalized_selection (g : StatuteGraph) (hwf : WF g)
    (pfx : Option String) (sections : Option (Nat × Nat)) :
    (∀ x, x ∈ nodeIds (subgraph g pfx sections) ↔
      x ∈ nodeIds g ∧ selectNode pfx sections x = true) ∧
    (∀ e, e ∈ edgeIds (subgraph g pfx sections) ↔
      e ∈ edgeIds g ∧ selectNode pfx sections e.1 = true ∧
        selectNode pfx sections e.2 = true) := by
  have hsub := subgraph_eq g hwf pfx sections
  constructor
  · intro x
    rw [hsub]
    show x ∈ (g.nodes.filter (fun nd => decide (nd.1 ∈
      (nodeIds g).filter (selectNode pfx sections)))).map Prod.fst ↔ _
    rw [map_fst_filter_decide, List.mem_filter, decide_eq_true_eq]
    constructor
    · rintro ⟨hx, hm⟩
      exact ⟨hx, (List.mem_filter.mp hm).2⟩
    · rintro ⟨hx, hs⟩
      exact ⟨hx, List.mem_filter.mpr ⟨hx, hs⟩⟩
  · intro e
    rw [hsub]
    show e ∈ (g.edges.filter (fun e => decide (e.1.1 ∈
        (nodeIds g).filter (selectNode pfx sections)) && decide (e.1.2 ∈
        (nodeIds g).filter (selectNode pfx sections)))).map Prod.fst ↔ _
    rw [map_fst_filter_decide2, List.mem_filter, Bool.and_eq_true,
      decide_eq_true_eq, decide_eq_true_eq]
    constructor
    · rintro ⟨he, h1, h2⟩
      exact ⟨he, (List.mem_filter.mp h1).2, (List.mem_filter.mp h2).2⟩
    · rintro ⟨he, h1, h2⟩
      exact ⟨he, List.mem_filter.mpr ⟨(hwf.2.2 e he).1, h1⟩,
        List.mem_filter.mpr ⟨(hwf.2.2 e he).2, h2⟩⟩

/-- Witness for the amended C6 at a concrete graph and query. -/
theorem C6_subgraph_normalized_selection_witness :
    WF exC6 ∧
    ((∀ x, x ∈ nodeIds (subgraph exC6 (some "26/32") none) ↔
      x ∈ nodeIds exC6 ∧ selectNode (some "26/32") none x = true) ∧
    (∀ e, e ∈ edgeIds (subgraph exC6 (some "26/32") none) ↔
      e ∈ edgeIds exC6 ∧ selectNode (some "26/32") none e.1 = true ∧
        selectNode (some "26/32") none e.2 = true)) :=
  ⟨by decide, C6_subgraph_normalized_selection exC6 (by decide)
    (some "26/32") none⟩

theorem foldl_add_node_encoded :
    ∀ (L : List (String × Attrs)) (g0 : StatuteGraph),
      (L.foldl (fun acc nd => add_node acc nd.1 nd.2) g0).encoded =
        g0.encoded := by
  intro L
  induction L with
  | nil => intro g0; rfl
  | cons nd L ih =>
      intro g0
      rw [List.foldl_cons, ih, add_node_encoded]

theorem foldl_addEdgeRaw_encoded :
    ∀ (EL : List ((String × String) × Attrs)) (g0 : StatuteGraph),
      (EL.foldl (fun acc e => addEdgeRaw acc e.1.1 e.1.2 e.2) g0).encoded =
        g0.encoded := by
  intro EL
  induction EL with
  | nil => intro g0; rfl
  | cons e EL ih =>
      intro g0
      rw [List.foldl_cons, ih, addEdgeRaw_encoded]

/-- The prefix/section `subgraph` always returns an empty encoded set. -/
theorem subgraph_encoded (g : StatuteGraph) (pfx : Option String)
    (sections : Option (Nat × Nat)) :
    (subgraph g pfx sections).encoded = [] := by
  simp only [subgraph]
  rw [foldl_addEdgeRaw_encoded, foldl_add_node_encoded]
  rfl

/-- C9 as stated is false on the code: the prefix/section `subgraph`
does not intersect the parent's encoded set with the retained nodes —
its encoded set is empty even when an encoded node was retained. -/
theorem C9_subgraph_encoded_counterexample :
    "us/statute/26/32" ∈
        nodeIds (subgraph exC9 (some "us/statute/26") none) ∧
    exC9.encoded = ["us/statute/26/32"] ∧
    (subgraph exC9 (some "us/statute/26") none).encoded = [] := by decide

/-- C9 (amended): `subgraph_from_nodes` returns the induced subgraph on
the given node set with the encoded set equal to the parent's encoded
set intersected with the retained nodes, while the prefix/section
`subgraph` builds a fresh graph whose encoded set is empty. In this
value-semantics embedding both results are fresh values: no operation on
one graph can change another. -/
theorem C9_subgraph_copy_semantics (g : StatuteGraph) (ns : List String)
    (pfx : Option String) (sections : Option (Nat × Nat)) :
    ((subgraph_from_nodes g ns).encoded =
      g.encoded.filter (fun x => decide (x ∈ ns))) ∧
    (∀ x, x ∈ nodeIds (subgraph_from_nodes g ns) ↔
      x ∈ nodeIds g ∧ x ∈ ns) ∧
    (∀ e, e ∈ edgeIds (subgraph_from_nodes g ns) ↔
      e ∈ edgeIds g ∧ e.1 ∈ ns ∧ e.2 ∈ ns) ∧
    (subgraph g pfx sections).encoded = [] := by
  refine ⟨rfl, ?_, ?_, subgraph_encoded g pfx sections⟩
  · intro x
    show x ∈ (g.nodes.filter (fun nd => decide (nd.1 ∈ ns))).map
      Prod.fst ↔ _
    rw [map_fst_filter_decide, List.mem_filter, decide_eq_true_eq]
    exact Iff.rfl
  · intro e
    show e ∈ (g.edges.filter (fun e => decide (e.1.1 ∈ ns) &&
      decide (e.1.2 ∈ ns))).map Prod.fst ↔ _
    rw [map_fst_filter_decide2, List.mem_filter, Bool.and_eq_true,
      decide_eq_true_eq, decide_eq_true_eq]
    exact Iff.rfl

theorem nodeIds_add_node (g : StatuteGraph) (id : String) (attrs : Attrs) :
    nodeIds (add_node g id attrs) =
      if id ∈ nodeIds g then nodeIds g else nodeIds g ++ [id] := by
  by_cases h : id ∈ nodeIds g
  · rw [if_pos h]
    unfold add_node
    rw [if_pos h]
    show (g.nodes.map _).map Prod.fst = _
    rw [List.map_map]
    exact List.map_congr_left (fun p _ => by
      by_cases hp : p.1 = id <;> simp [hp])
  · rw [if_neg h]
    unfold add_node
    rw [if_neg h]
    show (g.nodes ++ [(id, attrs)]).map Prod.fst = _
    simp [nodeIds]

theorem mem_nodeIds_add_node {g : StatuteGraph} {x : String}
    (id : String) (attrs : Attrs) (h : x ∈ nodeIds g) :
    x ∈ nodeIds (add_node g id attrs) := by
  rw [nodeIds_add_node]
  split
  · exact h
  · exact List.mem_append.mpr (Or.inl h)

theorem WF_add_node {g : StatuteGraph} (hwf : WF g) (id : String)
    (attrs : Attrs) : WF (add_node g id attrs) := by
  obtain ⟨h1, h2, h3⟩ := hwf
  refine ⟨?_, ?_, ?_⟩
  · rw [nodeIds_add_node]
    split
    · exact h1
    · next h =>
        rw [List.nodup_append]
        exact ⟨h1, List.nodup_singleton _, fun a ha hb =>
          h ((List.mem_singleton.mp hb) ▸ ha)⟩
  · show (edgeIds (add_node g id attrs)).Nodup
    unfold edgeIds
    rw [add_node_edges]
    exact h2
  · intro e he
    unfold edgeIds at he
    rw [add_node_edges] at he
    exact ⟨mem_nodeIds_add_node id attrs (h3 e he).1,
      mem_nodeIds_add_node id attrs (h3 e he).2⟩

theorem edgeIds_set_edges (g : StatuteGraph)
    (E : List ((String × String) × Attrs)) :
    edgeIds { g with edges := E } = E.map Prod.fst := rfl

theorem map_fst_update_edge (u v : String) (data : Attrs)
    (E : List ((String × String) × Attrs)) :
    (E.map (fun e => if e.1 = (u, v) then (e.1, updateAttrs e.2 data)
      else e)).map Prod.fst = E.map Prod.fst := by
  rw [List.map_map]
  exact List.map_congr_left (fun e _ => by
    by_cases he : e.1 = (u, v) <;> simp [he])

theorem edgeIds_addEdgeRaw (g : StatuteGraph) (u v : String)
    (data : Attrs) :
    edgeIds (addEdgeRaw g u v data) =
      if (u, v) ∈ edgeIds g then edgeIds g else edgeIds g ++ [(u, v)] := by
  have hedges2 : (ensureNode (ensureNode g u) v).edges = g.edges := by
    rw [ensureNode_edges, ensureNode_edges]
  have hids2 : edgeIds (ensureNode (ensureNode g u) v) = edgeIds g := by
    unfold edgeIds
    rw [hedges2]
  simp only [addEdgeRaw]
  split
  · next h =>
      rw [hids2] at h
      rw [if_pos h, edgeIds_set_edges, map_fst_update_edge, hedges2]
      rfl
  · next h =>
      rw [hids2] at h
      rw [if_neg h, edgeIds_set_edges, List.map_append, hedges2]
      rfl

theorem nodeIds_addEdgeRaw (g : StatuteGraph) (u v : String)
    (data : Attrs) :
    nodeIds (addEdgeRaw g u v data) =
      nodeIds (ensureNode (ensureNode g u) v) := by
  unfold nodeIds
  rw [addEdgeRaw_nodes]

theorem WF_addEdgeRaw {g : StatuteGraph} (hwf : WF g) (u v : String)
    (data : Attrs) : WF (addEdgeRaw g u v data) := by
  obtain ⟨h1, h2, h3⟩ := hwf
  have hn2 : (nodeIds (ensureNode (ensureNode g u) v)).Nodup :=
    nodup_ensureNode v (nodup_ensureNode u h1)
  have hmemg : ∀ x, x ∈ nodeIds g →
      x ∈ nodeIds (ensureNode (ensureNode g u) v) :=
    fun x hx => mem_nodeIds_ensureNode v (mem_nodeIds_ensureNode u hx)
  refine ⟨?_, ?_, ?_⟩
  · rw [nodeIds_addEdgeRaw]
    exact hn2
  · rw [edgeIds_addEdgeRaw]
    split
    · exact h2
    · next h =>
        rw [List.nodup_append]
        exact ⟨h2, List.nodup_singleton _, fun a ha hb =>
          h ((List.mem_singleton.mp hb) ▸ ha)⟩
  · intro e he
    rw [edgeIds_addEdgeRaw] at he
    rw [nodeIds_addEdgeRaw]
    split at he
    · exact ⟨hmemg _ (h3 e he).1, hmemg _ (h3 e he).2⟩
    · rcases List.mem_append.mp he with he' | he'
      · exact ⟨hmemg _ (h3 e he').1, hmemg _ (h3 e he').2⟩
      · rw [List.mem_singleton] at he'
        subst he'
        exact ⟨mem_nodeIds_ensureNode v (self_mem_ensureNode g u),
          self_mem_ensureNode _ v⟩

theorem ensureNode_of_mem {g : StatuteGraph} {id : String}
    (h : id ∈ nodeIds g) : ensureNode g id = g := by
  unfold ensureNode
  rw [if_pos h]

theorem ensureNode_fresh_mem {g : StatuteGraph} {id : String}
    (h : id ∉ nodeIds g) : (id, ([] : Attrs)) ∈ (ensureNode g id).nodes := by
  unfold ensureNode
  rw [if_neg h]
  simp

theorem nodes_mem_ensureNode {g : StatuteGraph} (id : String)
    {p : String × Attrs} (h : p ∈ g.nodes) : p ∈ (ensureNode g id).nodes := by
  unfold ensureNode
  split
  · exact h
  · exact List.mem_append.mpr (Or.inl h)

theorem WF_build : ∀ (ops : List BuildOp) (g0 : StatuteGraph), WF g0 →
    WF (ops.foldl applyOp g0) := by
  intro ops
  induction ops with
  | nil => intro g0 h; exact h
  | cons op ops ih =>
      intro g0 h
      rw [List.foldl_cons]
      refine ih (applyOp g0 op) ?_
      cases op with
      | node id attrs => exact WF_add_node h id attrs
      | edge u v rt attrs => exact WF_addEdgeRaw h u v _

/-- C10: `add_edge` never fails on absent endpoints — it silently
creates any missing endpoint as a node with an empty attribute
dictionary, the edge is always present afterwards, and consequently
every graph built by any sequence of `add_node`/`add_edge` calls from
the empty graph is well-formed: in particular every edge's endpoints are
present as nodes (referential integrity holds unconditionally). -/
theorem C10_add_edge_referential_integrity :
    (∀ (g : StatuteGraph) (u v rt : String) (attrs : Attrs),
      u ∈ nodeIds (add_edge g u v rt attrs) ∧
      v ∈ nodeIds (add_edge g u v rt attrs) ∧
      (u, v) ∈ edgeIds (add_edge g u v rt attrs) ∧
      (u ∉ nodeIds g →
        (u, ([] : Attrs)) ∈ (add_edge g u v rt attrs).nodes) ∧
      (v ∉ nodeIds g →
        (v, ([] : Attrs)) ∈ (add_edge g u v rt attrs).nodes)) ∧
    (∀ ops : List BuildOp, WF (build ops)) ∧
    (∀ ops : List BuildOp, ∀ e ∈ edgeIds (build ops),
      e.1 ∈ nodeIds (build ops) ∧ e.2 ∈ nodeIds (build ops)) := by
  refine ⟨?_, ?_, ?_⟩
  · intro g u v rt attrs
    refine ⟨?_, ?_, ?_, ?_, ?_⟩
    · rw [show add_edge g u v rt attrs =
        addEdgeRaw g u v (("ref_type", rt) :: attrs) from rfl,
        nodeIds_addEdgeRaw]
      exact mem_nodeIds_ensureNode v (self_mem_ensureNode g u)
    · rw [show add_edge g u v rt attrs =
        addEdgeRaw g u v (("ref_type", rt) :: attrs) from rfl,
        nodeIds_addEdgeRaw]
      exact self_mem_ensureNode _ v
    · rw [show add_edge g u v rt attrs =
        addEdgeRaw g u v (("ref_type", rt) :: attrs) from rfl,
        edgeIds_addEdgeRaw]
      split
      · next h => exact h
      · exact List.mem_append.mpr (Or.inr (List.mem_singleton_self _))
    · intro hu
      rw [show add_edge g u v rt attrs =
        addEdgeRaw g u v (("ref_type", rt) :: attrs) from rfl,
        addEdgeRaw_nodes]
      exact nodes_mem_ensureNode v (ensureNode_fresh_mem hu)
    · intro hv
      rw [show add_edge g u v rt attrs =
        addEdgeRaw g u v (("ref_type", rt) :: attrs) from rfl,
        addEdgeRaw_nodes]
      by_cases hvu : v ∈ nodeIds (ensureNode g u)
      · have hgu : u ∉ nodeIds g := by
          intro hu
          have : ensureNode g u = g := by
            unfold ensureNode
            rw [if_pos hu]
          rw [this] at hvu
          exact hv hvu
        have hveq : v = u := by
          have hn : nodeIds (ensureNode g u) = nodeIds g ++ [u] := by
            unfold ensureNode
            rw [if_neg hgu]
            show (g.nodes ++ [(u, [])]).map Prod.fst = _
            simp [nodeIds]
          rw [hn] at hvu
          rcases List.mem_append.mp hvu with h | h
          · exact absurd h hv
          · exact List.mem_singleton.mp h
        subst hveq
        rw [ensureNode_of_mem hvu]
        exact ensureNode_fresh_mem hgu
      · exact ensureNode_fresh_mem hvu
  · intro ops
    exact WF_build ops empty (by decide)
  · intro ops e he
    exact (WF_build ops empty (by decide)).2.2 e he

/-- Witness for C10 at concrete calls. -/
theorem C10_add_edge_referential_integrity_witness :
    ("X" ∉ nodeIds empty) ∧
    (("X", ([] : Attrs)) ∈ (add_edge empty "X" "Y" "r" []).nodes) ∧
    (("X", "Y") ∈ edgeIds (build [BuildOp.edge "X" "Y" "r" []])) ∧
    ("X" ∈ nodeIds (build [BuildOp.edge "X" "Y" "r" []]) ∧
      "Y" ∈ nodeIds (build [BuildOp.edge "X" "Y" "r" []])) :=
  ⟨by decide,
   (C10_add_edge_referential_integrity.1 empty "X" "Y" "r" []).2.2.2.1
     (by decide),
   by decide,
   C10_add_edge_referential_integrity.2.2 [BuildOp.edge "X" "Y" "r" []]
     ("X", "Y") (by decide)⟩

end StatuteGraph
